import Mathlib

/-!
Verification development for the SubTransAI subtitle-translation core
(`backend/app/agents/`: `srt_validator.py`, `srt_splitter.py`, `translator.py`,
`srt_reassembler.py`, `workflow.py`).

Python strings are modelled as `List Char`; the Python standard-library
primitives the agents use (`str.splitlines`, `str.strip`, `int(...)`) are
modelled character by character below.  Each agent function is translated
into an executable Lean definition next to a comment pointing at the source
lines it embeds.
-/

namespace SubTransAI

/-- Model of Python's ASCII whitespace characters, the ones `str.strip()`
removes and `\s` matches in the agents' regular expressions.  (Python also
treats some further Unicode code points as whitespace; the documents
handled here are quantified so that no such code point occurs inside a
line, so the ASCII set is faithful on the quantified domain.) -/
def isWS (c : Char) : Bool :=
  c = ' ' || c = '\t' || c = '\n' || c = '\r' || c = '\x0b' || c = '\x0c'

/-- ASCII decimal digit, as matched by `\d` and accepted by `int(...)`. -/
def isDig (c : Char) : Bool :=
  '0' ≤ c && c ≤ '9'

/-- Python `str.strip()`: drop whitespace from both ends. -/
def pyStrip (l : List Char) : List Char :=
  ((l.dropWhile isWS).reverse.dropWhile isWS).reverse

/-- Split a character list at every `'\n'`; a list with `n` newline
characters yields `n + 1` lines.  This is the structural core of Python's
`str.splitlines` (the documents quantified over contain no `\r` or other
exotic line-break characters, for which `splitlines` would differ). -/
def consHead (c : Char) : List (List Char) → List (List Char)
  | [] => [[c]]
  | L :: Ls => (c :: L) :: Ls

def linesOf : List Char → List (List Char)
  | [] => [[]]
  | c :: rest =>
    if c = '\n' then [] :: linesOf rest
    else consHead c (linesOf rest)

/-- Python `str.splitlines()`: like `linesOf`, except that the empty string
gives `[]` and a trailing newline does not produce a final empty line. -/
def pySplitlines (l : List Char) : List (List Char) :=
  if l = [] then []
  else if (linesOf l).getLast? = some [] then (linesOf l).dropLast
  else linesOf l

/-- The stripped non-blank lines of a string, in order.  Every parser in the
agents strips each line and skips blank lines, so this is the information
a parse depends on. -/
def tokenize (ls : List (List Char)) : List (List Char) :=
  (ls.map pyStrip).filter (· ≠ [])

/-- Stripped non-blank lines of a string (via the total `linesOf`). -/
def tokens (l : List Char) : List (List Char) :=
  tokenize (linesOf l)

/-- Stripped non-blank lines of a string, via `pySplitlines` as the agents
compute them. -/
def pyTokens (l : List Char) : List (List Char) :=
  tokenize (pySplitlines l)

/-- Digit/underscore tail of a Python integer literal: `duGo true` expects a
digit at the current position (start of the literal or right after an
underscore), `duGo false` allows a digit or a single underscore. -/
def duGo : Bool → List Char → Bool
  | true, [] => false
  | true, c :: rest => isDig c && duGo false rest
  | false, [] => true
  | false, c :: rest => if c = '_' then duGo true rest else isDig c && duGo false rest

/-- Does `int(s)` succeed on this (already stripped) string?  Python accepts
an optional sign followed by digits with single interior underscores. -/
def isPyInt : List Char → Bool
  | [] => false
  | c :: rest => if c = '+' || c = '-' then duGo true rest else duGo true (c :: rest)

/-- Value of the digit/underscore body of a Python integer literal. -/
def duVal (acc : Nat) : List Char → Nat
  | [] => acc
  | c :: rest =>
    if c = '_' then duVal acc rest else duVal (acc * 10 + (c.toNat - '0'.toNat)) rest

/-- Value of `int(s)` on an (already stripped) string it accepts. -/
def pyIntVal : List Char → Int
  | [] => 0
  | c :: rest =>
    if c = '+' then (duVal 0 rest : Int)
    else if c = '-' then -(duVal 0 rest : Int)
    else (duVal 0 (c :: rest) : Int)

/-- Character of a decimal digit value. -/
def digitChar (d : Nat) : Char :=
  Char.ofNat ('0'.toNat + d)

/-- Decimal digit string of a natural number, as Python's `str(n)` /
an f-string produces for the non-negative ids appearing here.  Fuel
`n + 1` always suffices since the quotient shrinks. -/
def natDigitsGo : Nat → Nat → List Char
  | 0, _ => []
  | fuel + 1, n => if n < 10 then [digitChar n] else natDigitsGo fuel (n / 10) ++ [digitChar (n % 10)]

def natDigits (n : Nat) : List Char :=
  natDigitsGo (n + 1) n

/-- Join lines with single newline separators (`"\n".join(lines)`). -/
def joinLines : List (List Char) → List Char
  | [] => []
  | [l] => l
  | l :: l2 :: rest => l ++ '\n' :: joinLines (l2 :: rest)

/-- Join block strings with blank-line separators (`"\n\n".join(blocks)`). -/
def joinBlocks : List (List Char) → List Char
  | [] => []
  | [b] => b
  | b :: b2 :: rest => b ++ '\n' :: '\n' :: joinBlocks (b2 :: rest)

/-- No character of Python's `str.splitlines` line-break set occurs in the
line (the model splits on `'\n'` only, so the documents quantified over
must avoid the other break characters for the model to be faithful). -/
def NoBreak (l : List Char) : Prop :=
  '\n' ∉ l ∧ '\r' ∉ l ∧ '\x0b' ∉ l ∧ '\x0c' ∉ l ∧ '\x1c' ∉ l ∧ '\x1d' ∉ l ∧
    '\x1e' ∉ l ∧ '\x85' ∉ l ∧ '\u2028' ∉ l ∧ '\u2029' ∉ l

/-- A clean line: non-empty, equal to its own strip (so it starts and ends
with non-whitespace), and free of line-break characters. -/
def CleanLine (l : List Char) : Prop :=
  l ≠ [] ∧ pyStrip l = l ∧ NoBreak l

/- ### Basic lemmas about the string primitives -/

theorem pyStrip_nil : pyStrip [] = [] := rfl

theorem dropWhile_eq_self_of_head {p : Char → Bool} :
    ∀ {l : List Char}, (∀ c, l.head? = some c → p c = false) → l.dropWhile p = l
  | [], _ => rfl
  | c :: rest, h => by
    simp only [List.dropWhile_cons]
    rw [h c rfl]
    simp

theorem pyStrip_eq_self (l : List Char)
    (h1 : ∀ c, l.head? = some c → isWS c = false)
    (h2 : ∀ c, l.getLast? = some c → isWS c = false) :
    pyStrip l = l := by
  unfold pyStrip
  rw [dropWhile_eq_self_of_head h1]
  rw [dropWhile_eq_self_of_head (by
    intro c hc
    apply h2
    rwa [List.getLast?_eq_head?_reverse])]
  simp

theorem consHead_ne_nil (c : Char) (ls : List (List Char)) : consHead c ls ≠ [] := by
  cases ls <;> simp [consHead]

theorem linesOf_ne_nil : ∀ (l : List Char), linesOf l ≠ []
  | [] => by simp [linesOf]
  | c :: rest => by
    unfold linesOf
    by_cases h : c = '\n'
    · simp [h]
    · simp only [if_neg h]
      exact consHead_ne_nil c _

/-- Splitting at an explicit newline decomposes `linesOf` when the first part
has no newline. -/
theorem linesOf_append_nl (a b : List Char) (ha : '\n' ∉ a) :
    linesOf (a ++ '\n' :: b) = a :: linesOf b := by
  induction a with
  | nil => simp [linesOf]
  | cons c rest ih =>
    have hc : c ≠ '\n' := fun h => ha (h ▸ List.mem_cons_self c rest)
    have hrest : '\n' ∉ rest := fun h => ha (List.mem_cons_of_mem c h)
    simp only [List.cons_append, linesOf, if_neg hc, List.append_eq, ih hrest, consHead]

/-- `linesOf` of a newline-free string is that single line. -/
theorem linesOf_no_nl (a : List Char) (ha : '\n' ∉ a) :
    linesOf a = [a] := by
  induction a with
  | nil => rfl
  | cons c rest ih =>
    have hc : c ≠ '\n' := fun h => ha (h ▸ List.mem_cons_self c rest)
    have hrest : '\n' ∉ rest := fun h => ha (List.mem_cons_of_mem c h)
    simp only [linesOf, if_neg hc, ih hrest, consHead]

theorem tokens_append_nl (a b : List Char) (ha : '\n' ∉ a) :
    tokens (a ++ '\n' :: b) = tokenize [a] ++ tokens b := by
  simp only [tokens, tokenize, linesOf_append_nl a b ha, List.map_cons, List.map_nil]
  rw [List.filter_cons]
  by_cases h : pyStrip a = [] <;> simp [h, List.filter_cons]

theorem tokens_single (a : List Char) (ha : '\n' ∉ a) :
    tokens a = tokenize [a] := by
  simp [tokens, tokenize, linesOf_no_nl a ha]

theorem tokenize_single_of (a : List Char) (hne : a ≠ []) (hs : pyStrip a = a) :
    tokenize [a] = [a] := by
  simp [tokenize, hs, hne]

/- ### The splitter's regular expression

`srt_splitter.py` line 41 matches
`(\d+)\s*\n([\d:,\s->]+)\s*\n([\s\S]*?)(?=\n\s*\n\s*\d+\s*\n|$)`
with `re.finditer`.

The shipped pattern does not compile: CPython's regex parser rejects the
character class `[\d:,\s->]` with `re.error: bad character range \s->`
(a `-` after the class shorthand `\s` opens a range whose left bound is
not a literal), so `re.finditer` raises on line 42 on every input, before
any parsing; `SRTSplitterAgent.split` catches the exception and returns
the error dictionary `{"chunks": [], "total_subtitles": 0, "error": ...}`
(lines 166-176), and the workflow then fails every run at its splitting
stage.  This contradicts the module's own test suite
(`test_srt_splitter.py::test_split_srt_basic` calls `split_srt` directly
and expects 3 chunks totalling 5 subtitles), so it is a slip, recorded as
a code bug below.

`splitAgentError` models the shipped behaviour.  The matcher that follows
models the pattern as evidently intended — the class read as the literal
characters the author listed: digits, `:`, `,`, whitespace, `-`, `>`
(exactly what an SRT timing line `HH:MM:SS,mmm --> HH:MM:SS,mmm`
consists of).  The pattern is embedded as an explicit backtracking
matcher: each sub-pattern enumerates its candidate (consumed, remainder)
splits in the engine's preference order (greedy pieces longest-first, the
lazy piece shortest-first), sequencing is `List.flatMap`, and the overall
match is the first candidate, exactly the leftmost match the engine
would report. -/

/-- The splitting agent's result dictionary, with the `"error"` key
modelled as a flag. -/
structure SplitAgentResult where
  chunksEmpty : Bool
  total_subtitles : Nat
  hasError : Bool
deriving DecidableEq, Repr

/-- What `SRTSplitterAgent.split` actually returns for every input: the
compile error of the pattern is caught and turned into the error
dictionary with no chunks. -/
def splitAgentError : SplitAgentResult :=
  ⟨true, 0, true⟩

/-- The character class `[\d:,\s->]` of the timing group as intended:
digits, `:`, `,`, whitespace, and the literal `-` and `>` (the shipped
spelling is rejected by the regex compiler, see above). -/
def classTwo (c : Char) : Bool :=
  isDig c || c = ':' || c = ',' || isWS c || c = '-' || c = '>'

/-- `[n, n-1, ..., 1]`: the candidate lengths a greedy `+` piece tries. -/
def descList : Nat → List Nat
  | 0 => []
  | n + 1 => (n + 1) :: descList n

/-- `[n, n-1, ..., 0]`: the candidate lengths a greedy `*` piece tries. -/
def descList0 (n : Nat) : List Nat :=
  descList n ++ [0]

/-- Candidate splits of a greedy `[class]+`: every non-empty prefix of the
maximal run of `class` characters, longest first. -/
def plusSplits (p : Char → Bool) (l : List Char) : List (List Char × List Char) :=
  (descList (l.takeWhile p).length).map fun k => (l.take k, l.drop k)

/-- Strip one leading literal newline, the `\n` steps of the pattern. -/
def nlSplit : List Char → Option (List Char)
  | '\n' :: r => some r
  | _ => none

/-- Candidate splits of `\s*\n`: a whitespace prefix (greedy, longest first)
followed by a literal newline; the pair is (consumed incl. the newline,
remainder). -/
def wsStarNl (l : List Char) : List (List Char × List Char) :=
  (descList0 (l.takeWhile isWS).length).filterMap fun k =>
    (nlSplit (l.drop k)).map fun r => (l.take k ++ ['\n'], r)

/-- Candidate splits of a greedy `[class]*`, longest first. -/
def starSplits (p : Char → Bool) (l : List Char) : List (List Char × List Char) :=
  (descList0 (l.takeWhile p).length).map fun k => (l.take k, l.drop k)

/-- Candidate splits of the lazy `[\s\S]*?`: every split, shortest first. -/
def lazySplits : List Char → List (List Char × List Char)
  | [] => [([], [])]
  | c :: rest => ([], c :: rest) :: (lazySplits rest).map fun p => (c :: p.1, p.2)

/-- Match attempts of the lookahead body `\n\s*\n\s*\d+\s*\n` at the given
position (each entry is a possible remainder); only non-emptiness matters. -/
def lookCands (l : List Char) : List (List Char) :=
  match nlSplit l with
  | some r1 =>
    (wsStarNl r1).flatMap fun p2 =>
    (starSplits isWS p2.2).flatMap fun p3 =>
    (plusSplits isDig p3.2).flatMap fun p4 =>
    (wsStarNl p4.2).map fun p5 => p5.2
  | none => []

/-- Does `\n\s*\n\s*\d+\s*\n` match at this position? -/
def hasLook (l : List Char) : Bool :=
  !(lookCands l).isEmpty

/-- The full lookahead `(?=\n\s*\n\s*\d+\s*\n|$)`. -/
def lookOk (l : List Char) : Bool :=
  hasLook l || l.isEmpty

/-- One match of the splitter pattern: the three captured groups and the
remainder of the subject after the match. -/
structure RMatch where
  g1 : List Char
  g2 : List Char
  g3 : List Char
  rest : List Char
deriving DecidableEq, Repr

/-- All full-pattern matches anchored at the current position, in
backtracking preference order. -/
def matchCands (l : List Char) : List RMatch :=
  (plusSplits isDig l).flatMap fun p1 =>
  (wsStarNl p1.2).flatMap fun p2 =>
  (plusSplits classTwo p2.2).flatMap fun p3 =>
  (wsStarNl p3.2).flatMap fun p4 =>
  (lazySplits p4.2).filterMap fun p5 =>
    if lookOk p5.2 then some ⟨p1.1, p3.1, p5.1, p5.2⟩ else none

/-- The match the engine reports at this position, if any. -/
def matchAt (l : List Char) : Option RMatch :=
  (matchCands l).head?

/-- `re.finditer`: scan for the leftmost match, report it, continue after
its end.  Every match consumes at least one character (`\d+` is non-empty),
so fuel `length + 1` never runs out. -/
def findGo : Nat → List Char → List RMatch
  | 0, _ => []
  | _ + 1, [] => []
  | fuel + 1, c :: rest =>
    match matchAt (c :: rest) with
    | none => findGo fuel rest
    | some m => m :: findGo fuel m.rest

def regexFind (l : List Char) : List RMatch :=
  findGo (l.length + 1) l

/- ### The splitter (`split_srt`, `srt_splitter.py` lines 24-132) -/

/-- Python `str(i)` for the integer values appearing here. -/
def intToStr : Int → List Char
  | .ofNat n => natDigits n
  | .negSucc n => '-' :: natDigits (n + 1)

/-- A subtitle block as the splitter collects it: `{"id": ..., "content": ...}`. -/
structure SBlock where
  id : Int
  content : List Char
deriving DecidableEq, Repr

/-- Regex-path blocks (lines 47-55): id is `int(group(1))`, content is
`f"{subtitle_id}\n{timing}\n{subtitle_text}"` with `subtitle_text =
group(3).strip()` — note the f-string re-prints the parsed integer. -/
def regexBlocks (content : List Char) : List SBlock :=
  (regexFind content).map fun m =>
    ⟨pyIntVal m.g1, intToStr (pyIntVal m.g1) ++ '\n' :: m.g2 ++ '\n' :: pyStrip m.g3⟩

/-- A parsed block of the line-scanning parsers (translator lines 51-94 and
splitter fallback lines 60-101): the `int(...)` of the integer line that
opened it, together with its stripped lines. -/
structure LBlock where
  id : Int
  lines : List (List Char)
deriving DecidableEq, Repr

/-- Line-scanning block grouping shared by the splitter fallback and the
translator: each line is stripped, blank lines are skipped, a line accepted
by `int(...)` opens a new block, other lines extend the current block, and
lines seen before the first integer line are discarded (`if current_block:`
guards the append while `current_block` is still empty).  Operating on the
stripped non-blank lines (`tokenize`d input), this is: an integer token
starts a block that extends over the following non-integer tokens.  Each
step consumes at least one token, so fuel `length + 1` never runs out. -/
def transGroupGo : Nat → List (List Char) → List LBlock
  | 0, _ => []
  | _ + 1, [] => []
  | fuel + 1, t :: rest =>
    if isPyInt t then
      ⟨pyIntVal t, t :: rest.takeWhile (fun x => !isPyInt x)⟩ ::
        transGroupGo fuel (rest.dropWhile (fun x => !isPyInt x))
    else transGroupGo fuel rest

def transGroup (ts : List (List Char)) : List LBlock :=
  transGroupGo (ts.length + 1) ts

/-- Fallback blocks of the splitter (lines 58-101): the same scan, with
`content = "\n".join(block_lines)`. -/
def fallbackBlocks (content : List Char) : List SBlock :=
  (transGroup (pyTokens content)).map fun b => ⟨b.id, joinLines b.lines⟩

/-- `subtitle_blocks` as `split_srt` computes them: regex parse first, the
manual scan only if the regex found nothing (lines 42-101). -/
def splitParse (content : List Char) : List SBlock :=
  let rb := regexBlocks content
  if rb = [] then fallbackBlocks content else rb

/-- Grouping `for i in range(0, total_blocks, chunk_size):
blocks[i:i+chunk_size]` (lines 109-111), for `chunk_size ≥ 1` (Python
raises on step 0; the workflow always passes a positive size).  Each step
consumes at least one block, so fuel `length + 1` never runs out. -/
def toChunksGo (k : Nat) : Nat → List SBlock → List (List SBlock)
  | 0, _ => []
  | _ + 1, [] => []
  | fuel + 1, b :: rest => (b :: rest.take (k - 1)) :: toChunksGo k fuel (rest.drop (k - 1))

def toChunks (k : Nat) (bs : List SBlock) : List (List SBlock) :=
  toChunksGo k (bs.length + 1) bs

/-- A chunk as `split_srt` returns it (lines 113-123). -/
structure SChunk where
  id : Nat
  content : List Char
  rangeStart : Int
  rangeEnd : Int
deriving DecidableEq, Repr

def mkChunk (i : Nat) (g : List SBlock) : SChunk :=
  ⟨i + 1, joinBlocks (g.map (·.content)),
    ((g.head?).map (·.id)).getD 0, ((g.getLast?).map (·.id)).getD 0⟩

structure SplitResult where
  chunks : List SChunk
  total_subtitles : Nat
deriving DecidableEq, Repr

/-- `split_srt(content, chunk_size)` (lines 24-132). -/
def splitSrt (content : List Char) (chunk_size : Nat) : SplitResult :=
  let blocks := splitParse content
  ⟨(toChunks chunk_size blocks).enum.map fun p => mkChunk p.1 p.2, blocks.length⟩

/- ### The translator (`translate_chunk`, `translator.py` lines 25-153)

The glossary is an ordered association list, matching the insertion order
of the Python `dict`.  The external translation capability (`provider` in
the specification) is the function the engine dispatch on lines 122-131
selects; `translateChunkWith` abstracts it as a parameter and
`deepseekTranslate` is the engine the `"deepseek"` branch calls. -/

/-- Python `str.lower()` (ASCII-adequate, as are the glossary terms the
claims quantify over). -/
def lowerL (l : List Char) : List Char :=
  l.map Char.toLower

/-- Sequence prefix test. -/
def startsWithSeq : List Char → List Char → Bool
  | [], _ => true
  | _ :: _, [] => false
  | a :: p, b :: s => a == b && startsWithSeq p s

/-- Python's `sub in s` substring test. -/
def containsSeq (p s : List Char) : Bool :=
  if startsWithSeq p s then true
  else
    match s with
    | [] => false
    | _ :: s' => containsSeq p s'

/-- One step list of `re.compile(re.escape(term), re.IGNORECASE).sub(repl, s)`:
scan left to right, replace each (non-overlapping, leftmost) occurrence of
`term` compared case-insensitively.  Each step consumes at least one
character of `s` when `term` is non-empty, so fuel `length + 1` suffices. -/
def ciRepGo (term repl : List Char) : Nat → List Char → List Char
  | 0, s => s
  | fuel + 1, s =>
    if startsWithSeq (lowerL term) (lowerL s) then
      repl ++ ciRepGo term repl fuel (s.drop term.length)
    else
      match s with
      | [] => []
      | c :: s' => c :: ciRepGo term repl fuel s'

def ciReplace (term repl s : List Char) : List Char :=
  ciRepGo term repl (s.length + 1) s

/-- `_translate_with_deepseek` (lines 156-189): tag the text with
`f"[{source_lang} -> {target_lang}] "`, then for every glossary entry whose
lowercased term occurs in the lowercased original text, case-insensitively
replace the term inside the evolving translated text. -/
def deepseekTranslate (source_lang target_lang : List Char)
    (glossary : List (List Char × List Char)) (text : List Char) : List Char :=
  let tagged := "[".data ++ source_lang ++ " -> ".data ++ target_lang ++ "] ".data ++ text
  glossary.foldl
    (fun acc p => if containsSeq (lowerL p.1) (lowerL text) then ciReplace p.1 p.2 acc else acc)
    tagged

/-- A glossary match record (lines 116-120); `subtitle_id` is the block's
leading line as a string, exactly as the Python dict stores it. -/
structure GlossMatch where
  subtitle_id : List Char
  term : List Char
  translation : List Char
deriving DecidableEq, Repr

/-- The blocks `translate_chunk` parses from its input (lines 51-94: the
same strip/skip-blank/int-boundary scan as the splitter fallback). -/
def transBlocks (content : List Char) : List LBlock :=
  transGroup (pyTokens content)

/-- The text block of a parsed subtitle block: its lines after the id and
timing lines, rejoined (line 110). -/
def textOf (b : LBlock) : List Char :=
  joinLines (b.lines.drop 2)

/-- Output content of one block under provider `prov` (lines 100-140): a
block with fewer than 3 lines passes through with its content unchanged
and is not sent to the provider; otherwise the id and timing lines are
kept and the text block is replaced by the provider's output. -/
def transBlockOut (prov : List Char → List Char) (b : LBlock) : List Char :=
  if b.lines.length < 3 then joinLines b.lines
  else (b.lines.getD 0 []) ++ '\n' :: (b.lines.getD 1 []) ++ '\n' :: prov (textOf b)

/-- Glossary matches recorded for one block (lines 112-120); nothing is
recorded for a malformed (pass-through) block. -/
def blockMatches (glossary : List (List Char × List Char)) (b : LBlock) : List GlossMatch :=
  if b.lines.length < 3 then []
  else glossary.filterMap fun p =>
    if containsSeq (lowerL p.1) (lowerL (textOf b)) then
      some ⟨b.lines.getD 0 [], p.1, p.2⟩
    else none

structure TransResult where
  translated_content : List Char
  glossary_matches : List GlossMatch
deriving DecidableEq, Repr

/-- `translate_chunk` with the provider call abstracted (lines 96-153):
translate each block, join with blank lines, collect glossary matches in
block order then glossary order. -/
def translateChunkWith (prov : List Char → List Char)
    (glossary : List (List Char × List Char)) (content : List Char) : TransResult :=
  let blocks := transBlocks content
  ⟨joinBlocks (blocks.map (transBlockOut prov)), blocks.flatMap (blockMatches glossary)⟩

/-- `translate_chunk(content, sl, tl, glossary, engine="deepseek")` with a
configured DeepSeek key: the provider the engine dispatch selects is the
DeepSeek mock. -/
def translateChunkDeepseek (source_lang target_lang : List Char)
    (glossary : List (List Char × List Char)) (content : List Char) : TransResult :=
  translateChunkWith (deepseekTranslate source_lang target_lang glossary) glossary content

/- ### The reassembler (`reassemble_srt`, `srt_reassembler.py` lines 26-109) -/

/-- A translated chunk as the workflow hands it to the reassembler
(`{"id": ..., "translated_content": ...}`, workflow.py lines 153-156). -/
structure RChunk where
  id : Int
  translated_content : List Char
deriving DecidableEq, Repr

/-- `sorted(chunks, key=lambda x: x.get("id", 0))` (line 45).  Python's
`sorted` is a stable sort by the key; every stable sort by the same key
computes the same list, and insertion sort with `≤` on keys is stable. -/
def sortChunks (cs : List RChunk) : List RChunk :=
  List.insertionSort (fun a b => a.id ≤ b.id) cs

/-- The reassembler's block grouping (lines 53-88): strip each line, skip
blank lines, a line accepted by `int(...)` starts a new block, every other
line extends the current block — including lines seen before the first
integer line, which form a leading block (the append on line 81 is not
guarded).  On the stripped non-blank lines this is: each block is one token
followed by the run of non-integer tokens after it. -/
def groupTokGo : Nat → List (List Char) → List (List (List Char))
  | 0, _ => []
  | _ + 1, [] => []
  | fuel + 1, t :: rest =>
    (t :: rest.takeWhile (fun x => !isPyInt x)) ::
      groupTokGo fuel (rest.dropWhile (fun x => !isPyInt x))

def groupTok (ts : List (List Char)) : List (List (List Char)) :=
  groupTokGo (ts.length + 1) ts

def reasmParse (content : List Char) : List (List (List Char)) :=
  groupTok (pyTokens content)

/-- ID normalisation (lines 91-94): overwrite each non-empty block's first
line with `str(i + 1)`. -/
def normalizeBlocks (bs : List (List (List Char))) : List (List (List Char)) :=
  bs.enum.map fun p =>
    match p.2 with
    | [] => []
    | _ :: tail => natDigits (p.1 + 1) :: tail

structure ReasmResult where
  content : List Char
  subtitle_count : Nat
deriving DecidableEq, Repr

/-- `reassemble_srt(chunks, normalize_ids)` (lines 26-109): sort by chunk
id, concatenate each chunk's parsed blocks, optionally renumber, emit each
non-empty block as `"\n".join(lines) + "\n\n"` and strip the result. -/
def reassembleSrt (chunks : List RChunk) (normalize_ids : Bool) : ReasmResult :=
  let allSubs := (sortChunks chunks).flatMap fun c => reasmParse c.translated_content
  let finalSubs := if normalize_ids then normalizeBlocks allSubs else allSubs
  ⟨pyStrip (finalSubs.flatMap fun b => if b = [] then [] else joinLines b ++ ['\n', '\n']),
    finalSubs.length⟩

/- ### The validator (`validate_srt`, `srt_validator.py` lines 24-120) -/

/-- The validator's error messages, by kind; the `line` values recorded
with them reproduce the source exactly, including the places that record
the 0-based scan position `i` instead of `i + 1`. -/
inductive VErrKind
  | emptyFile
  | badNumber
  | missingTiming
  | badTiming
  | missingText
  | emptyText
deriving DecidableEq, Repr

structure VErr where
  line : Nat
  kind : VErrKind
deriving DecidableEq, Repr

/-- Consume one expected character. -/
def expectC (c : Char) : List Char → Option (List Char)
  | x :: r => if x = c then some r else none
  | [] => none

/-- Consume exactly two digits. -/
def digits2 : List Char → Option (List Char)
  | a :: b :: r => if isDig a && isDig b then some r else none
  | _ => none

/-- Consume exactly three digits. -/
def digits3 : List Char → Option (List Char)
  | a :: b :: c :: r => if isDig a && isDig b && isDig c then some r else none
  | _ => none

/-- Consume a timestamp `\d{2}:\d{2}:\d{2},\d{3}`. -/
def timeStampP (l : List Char) : Option (List Char) :=
  ((((((digits2 l).bind (expectC ':')).bind digits2).bind (expectC ':')).bind
    digits2).bind (expectC ',')).bind digits3

/-- `re.match(r'(\d{2}:\d{2}:\d{2},\d{3})\s*-->\s*(\d{2}:\d{2}:\d{2},\d{3})',
time_line)` (line 79-80): a *prefix* match — `re.match` anchors only at the
start of the string, so trailing content after the second timestamp is
accepted.  The greedy `\s*` pieces are deterministic here because the
characters after them (`-` and a digit) are not whitespace. -/
def timingOk (l : List Char) : Bool :=
  ((((((timeStampP l).map (·.dropWhile isWS)).bind (expectC '-')).bind (expectC '-')).bind
      (expectC '>')).bind
      fun r => ((timeStampP (r.dropWhile isWS) : Option (List Char)))).isSome

/-- The exact timing shape `HH:MM:SS,mmm --> HH:MM:SS,mmm` the
specification describes: the prefix pattern with a single-space arrow and
nothing after the second timestamp. -/
def exactTiming (l : List Char) : Bool :=
  match timeStampP l with
  | none => false
  | some r =>
    match r with
    | ' ' :: '-' :: '-' :: '>' :: ' ' :: r2 => timeStampP r2 = some []
    | _ => false

/-- The text-and-blank scan at the tail of one record check (lines
95-109): the empty-text error if no non-blank line follows, the next scan
index, and the remaining lines. -/
def valText (idx : Nat) (rest2 : List (List Char)) : List VErr × Nat × List (List Char) :=
  ((if rest2.takeWhile (fun x => pyStrip x ≠ []) = [] then [⟨idx, VErrKind.emptyText⟩] else []),
    idx + (rest2.takeWhile fun x => pyStrip x ≠ []).length +
      ((rest2.dropWhile fun x => pyStrip x ≠ []).takeWhile fun x => pyStrip x = []).length,
    (rest2.dropWhile fun x => pyStrip x ≠ []).dropWhile fun x => pyStrip x = [])

/-- The resynchronisation after a bad subtitle number (lines 65-68): skip
the current and following non-blank lines. -/
def valResync (idx : Nat) (lines : List (List Char)) : Nat × List (List Char) :=
  (idx + (lines.takeWhile fun x => pyStrip x ≠ []).length,
    lines.dropWhile fun x => pyStrip x ≠ [])

/-- The validator's scan loop (lines 49-109), as a recursion over the line
list carrying the 0-based index `i`.  Each iteration consumes at least one
line, so fuel `length + 1` never runs out. -/
def valGo : Nat → Nat → List (List Char) → List VErr
  | 0, _, _ => []
  | _ + 1, _, [] => []
  | fuel + 1, idx, l :: rest =>
    if pyStrip l = [] then valGo fuel (idx + 1) rest
    else if isPyInt (pyStrip l) then
      match rest with
      | [] => [⟨idx + 1, .missingTiming⟩]
      | t :: rest2 =>
        let e1 : List VErr := if timingOk t then [] else [⟨idx + 2, .badTiming⟩]
        match rest2 with
        | [] => e1 ++ [⟨idx + 2, .missingText⟩]
        | _ :: _ =>
          let tr := valText (idx + 2) rest2
          e1 ++ tr.1 ++ valGo fuel tr.2.1 tr.2.2
    else
      ⟨idx + 1, .badNumber⟩ ::
        valGo fuel (valResync idx (l :: rest)).1 (valResync idx (l :: rest)).2

structure ValResult where
  valid : Bool
  errors : List VErr
deriving DecidableEq, Repr

/-- `validate_srt(content)` (lines 24-120). -/
def validateSrt (content : List Char) : ValResult :=
  if pyStrip content = [] then ⟨false, [⟨0, .emptyFile⟩]⟩
  else
    let errs := valGo ((pySplitlines content).length + 1) 0 (pySplitlines content)
    ⟨errs = [], errs⟩

/- ### The persistence writer (`save_srt_file`, `srt_reassembler.py`
lines 117-168)

File I/O is modelled by an explicit file system (an association list from
paths to contents) and an oracle choosing which of the three effectful
steps fail: `os.makedirs` (outside the `try`, so a failure there
propagates before any file is touched), the write into the temp file
(which may leave a partial prefix `partContent` behind before the
`except` branch removes the temp file and re-raises), and `os.rename`.
`none` as result models the exception propagating to the caller. -/

def FS := List (List Char × List Char)

def fsGet : FS → List Char → Option (List Char)
  | [], _ => none
  | (k, v) :: rest, p => if k = p then some v else fsGet rest p

def fsErase : FS → List Char → FS
  | [], _ => []
  | e :: rest, p => if e.1 = p then fsErase rest p else e :: fsErase rest p

def fsSet (fs : FS) (p v : List Char) : FS :=
  (p, v) :: fsErase fs p

structure SaveOracle where
  mkdirOk : Bool
  writeOk : Bool
  renameOk : Bool
  partContent : List Char

/-- `os.path.join(output_dir, f"{task_id}.srt")` and its `.tmp` sibling. -/
def finalPath (task_id output_dir : List Char) : List Char :=
  output_dir ++ '/' :: task_id ++ ".srt".data

def tmpPath (task_id output_dir : List Char) : List Char :=
  finalPath task_id output_dir ++ ".tmp".data

/-- `save_srt_file(content, task_id, output_dir)`: write the temp file,
atomically rename it onto the final path, return `(file_path, file_size)`;
on any failure inside the `try`, remove the temp file and re-raise. -/
def saveSrtFile (fs : FS) (content task_id output_dir : List Char) (o : SaveOracle) :
    FS × Option (List Char × Nat) :=
  if !o.mkdirOk then (fs, none)
  else
    let fp := finalPath task_id output_dir
    let tp := tmpPath task_id output_dir
    if !o.writeOk then (fsErase (fsSet fs tp o.partContent) tp, none)
    else
      let fs1 := fsSet fs tp content
      if !o.renameOk then (fsErase fs1 tp, none)
      else (fsSet (fsErase fs1 tp) fp content, some (fp, content.length))

/- ### The workflow (`TranslationWorkflow.process`, `workflow.py`
lines 42-270)

The stages that are pure pipeline steps run the definitions above; the
external effects are parameters: `tres` lists the per-chunk outcomes of
`TranslatorAgent.translate` (aligned with the chunk list, as
`asyncio.gather` returns them; an outcome with `hasError` models the
agent's error dictionary, produced when the engine raised), and `saveOk` /
`urlOk` are the outcomes of the save and download-URL steps.  Status
strings `"completed"` / `"failed"` are the two statuses; `error` and
`details` are `Option`s because the success return dictionary (lines
247-254) carries no such keys.

`processRun` is the shipped behaviour: the splitting stage calls
`SRTSplitterAgent.split`, which always returns its error dictionary
(`splitAgentError`, because `split_srt` raises compiling its pattern), so
`process` takes the `"error" in splitting_result` branch (lines 104-119)
on every validated input and never reaches the translators.
`processRunIntended` is the same pipeline with the splitting stage
repaired to the evidently intended pattern, used to analyse the stages
the shipped program cannot reach. -/

structure TransAgentResult where
  translated_content : List Char
  hasError : Bool
deriving DecidableEq, Repr

inductive PStatus
  | completed
  | failed
deriving DecidableEq, Repr

inductive PErr
  | validationFailed
  | splitFailed
  | translationAllFailed
  | reassembleFailed
  | saveFailed
  | urlFailed
deriving DecidableEq, Repr

inductive PDetails
  | validation (errors : List VErr)
  | split (result : SplitAgentResult)
  | translation (results : List TransAgentResult)
deriving DecidableEq, Repr

structure ProcResult where
  status : PStatus
  error : Option PErr
  details : Option PDetails
  subtitle_count : Option Nat
  file_size : Option Nat
deriving DecidableEq, Repr

/-- `TranslationWorkflow.process` as shipped: validation, then the
splitting agent's result — which is `splitAgentError` on every input —
makes the split-failure branch (lines 104-119) return `failed` with the
agent's error dictionary as `details` before any translation happens. -/
def processRun (content : List Char) (chunk_size : Nat)
    (tres : List TransAgentResult) (saveOk urlOk : Bool) : ProcResult :=
  let v := validateSrt content
  if !v.valid then ⟨.failed, some .validationFailed, some (.validation v.errors), none, none⟩
  else ⟨.failed, some .splitFailed, some (.split splitAgentError), none, none⟩

/-- The workflow with the splitting stage repaired to the intended
pattern (the split-failure branch is then not taken: `split_srt` returns
normally and its result dictionary carries no `"error"` key). -/
def processRunIntended (content : List Char) (chunk_size : Nat)
    (tres : List TransAgentResult) (saveOk urlOk : Bool) : ProcResult :=
  let v := validateSrt content
  if !v.valid then ⟨.failed, some .validationFailed, some (.validation v.errors), none, none⟩
  else
    let chunks := (splitSrt content chunk_size).chunks
    let translated : List RChunk :=
      ((chunks.zip tres).filter fun p => !p.2.hasError).map fun p =>
        ⟨(p.1.id : Int), p.2.translated_content⟩
    if translated = [] then
      ⟨.failed, some .translationAllFailed, some (.translation tres), none, none⟩
    else
      let r := reassembleSrt translated true
      if !saveOk then ⟨.failed, some .saveFailed, none, none, none⟩
      else if !urlOk then ⟨.failed, some .urlFailed, none, none, none⟩
      else ⟨.completed, none, none, some r.subtitle_count, some r.content.length⟩

/-- Every validated run of the shipped workflow fails at the splitting
stage: the split-count and partial-success properties never have a
completed run to hold of (see C4). -/
theorem process_split_error (content : List Char) (chunk_size : Nat)
    (tres : List TransAgentResult) (saveOk urlOk : Bool)
    (hval : (validateSrt content).valid = true) :
    processRun content chunk_size tres saveOk urlOk =
      ⟨.failed, some .splitFailed, some (.split splitAgentError), none, none⟩ := by
  unfold processRun
  simp [hval]

/- ### Filesystem lemmas and claim C9 -/

theorem fsGet_fsErase_self (fs : FS) (p : List Char) : fsGet (fsErase fs p) p = none := by
  induction fs with
  | nil => rfl
  | cons e rest ih =>
    by_cases h : e.1 = p
    · simpa [fsErase, h] using ih
    · simpa [fsErase, fsGet, h] using ih

theorem fsGet_fsErase_ne (fs : FS) (p q : List Char) (h : q ≠ p) :
    fsGet (fsErase fs p) q = fsGet fs q := by
  induction fs with
  | nil => rfl
  | cons e rest ih =>
    obtain ⟨k, v⟩ := e
    by_cases he : k = p
    · subst he
      have hq : k ≠ q := fun hx => h hx.symm
      simp [fsErase, fsGet, hq, ih]
    · by_cases hq : k = q
      · subst hq
        simp [fsErase, fsGet, h, ih]
      · simp [fsErase, fsGet, he, hq, ih]

theorem fsGet_fsSet_self (fs : FS) (p v : List Char) : fsGet (fsSet fs p v) p = some v := by
  simp [fsSet, fsGet]

theorem fsGet_fsSet_ne (fs : FS) (p q v : List Char) (h : q ≠ p) :
    fsGet (fsSet fs p v) q = fsGet fs q := by
  show (if p = q then some v else fsGet (fsErase fs p) q) = fsGet fs q
  rw [if_neg fun hq => h hq.symm, fsGet_fsErase_ne fs p q h]

theorem tmpPath_ne_finalPath (task_id output_dir : List Char) :
    finalPath task_id output_dir ≠ tmpPath task_id output_dir := by
  intro h
  have := congrArg List.length h
  simp [tmpPath] at this

/-- C9: Every save writes the content to `{dir}/{task_id}.srt.tmp` and then
renames it onto `{dir}/{task_id}.srt` (this is the very shape of
`saveSrtFile`); starting from a state with no stale temp file, if any step
fails the temp file is absent after the error propagates and the final
path still holds exactly what it held before, and on success the final
path holds the complete content with the temp file gone — so the final
artifact path never holds partially written content. -/
theorem save_file_atomic (fs : FS) (content task_id output_dir : List Char) (o : SaveOracle)
    (hfresh : fsGet fs (tmpPath task_id output_dir) = none) :
    ((saveSrtFile fs content task_id output_dir o).2 = none →
      fsGet (saveSrtFile fs content task_id output_dir o).1 (tmpPath task_id output_dir) = none ∧
      fsGet (saveSrtFile fs content task_id output_dir o).1 (finalPath task_id output_dir) =
        fsGet fs (finalPath task_id output_dir)) ∧
    (∀ p n, (saveSrtFile fs content task_id output_dir o).2 = some (p, n) →
      p = finalPath task_id output_dir ∧ n = content.length ∧
      fsGet (saveSrtFile fs content task_id output_dir o).1 p = some content ∧
      fsGet (saveSrtFile fs content task_id output_dir o).1 (tmpPath task_id output_dir) = none) := by
  have hne := tmpPath_ne_finalPath task_id output_dir
  have hne' : tmpPath task_id output_dir ≠ finalPath task_id output_dir := fun h => hne h.symm
  obtain ⟨m, w, r, pc⟩ := o
  cases m with
  | false =>
    exact ⟨fun _ => ⟨hfresh, rfl⟩, fun p n h => by simp [saveSrtFile] at h⟩
  | true =>
    cases w with
    | false =>
      refine ⟨fun _ => ⟨fsGet_fsErase_self _ _, ?_⟩, fun p n h => by simp [saveSrtFile] at h⟩
      show fsGet (fsErase (fsSet fs _ _) _) _ = _
      rw [fsGet_fsErase_ne _ _ _ hne, fsGet_fsSet_ne _ _ _ _ hne]
    | true =>
      cases r with
      | false =>
        refine ⟨fun _ => ⟨fsGet_fsErase_self _ _, ?_⟩, fun p n h => by simp [saveSrtFile] at h⟩
        show fsGet (fsErase (fsSet fs _ _) _) _ = _
        rw [fsGet_fsErase_ne _ _ _ hne, fsGet_fsSet_ne _ _ _ _ hne]
      | true =>
        refine ⟨fun h => by simp [saveSrtFile] at h, fun p n h => ?_⟩
        simp only [saveSrtFile, Bool.not_true, Bool.false_eq_true, if_false,
          Option.some.injEq, Prod.mk.injEq] at h
        obtain ⟨hp, hn⟩ := h
        subst hp
        subst hn
        refine ⟨rfl, rfl, fsGet_fsSet_self _ _ _, ?_⟩
        show fsGet (fsSet (fsErase (fsSet fs _ _) _) _ _) _ = _
        rw [fsGet_fsSet_ne _ _ _ _ hne', fsGet_fsErase_self]

/-- Witness for C9 at a concrete state and oracle: a successful save from
the empty file system puts the content at the final path. -/
theorem save_file_atomic_witness :
    fsGet (saveSrtFile [] "abc".data "t1".data "data/results".data ⟨true, true, true, []⟩).1
        (finalPath "t1".data "data/results".data) = some "abc".data ∧
      fsGet [] (tmpPath "t1".data "data/results".data) = none :=
  ⟨((save_file_atomic [] "abc".data "t1".data "data/results".data ⟨true, true, true, []⟩
      rfl).2 (finalPath "t1".data "data/results".data) 3 rfl).2.2.1, rfl⟩

/- ### List and token lemmas -/

theorem takeWhile_append_of {α : Type} (p : α → Bool) (xs ys : List α)
    (hxs : ∀ x ∈ xs, p x = true) (hys : ∀ h, ys.head? = some h → p h = false) :
    (xs ++ ys).takeWhile p = xs ∧ (xs ++ ys).dropWhile p = ys := by
  induction xs with
  | nil =>
    cases ys with
    | nil => exact ⟨rfl, rfl⟩
    | cons h t =>
      simp [List.takeWhile_cons, List.dropWhile_cons, hys h rfl]
  | cons x xs ih =>
    have hx := hxs x (List.mem_cons_self x xs)
    have ih' := ih (fun a ha => hxs a (List.mem_cons_of_mem x ha))
    simp [List.takeWhile_cons, List.dropWhile_cons, hx, ih'.1, ih'.2]

theorem takeWhile_append_all {α : Type} (p : α → Bool) (xs ys : List α)
    (hxs : ∀ x ∈ xs, p x = true) :
    (xs ++ ys).takeWhile p = xs ++ ys.takeWhile p ∧
      (xs ++ ys).dropWhile p = ys.dropWhile p := by
  induction xs with
  | nil => exact ⟨rfl, rfl⟩
  | cons x xs ih =>
    have hx := hxs x (List.mem_cons_self x xs)
    have ih' := ih (fun a ha => hxs a (List.mem_cons_of_mem x ha))
    simp [List.takeWhile_cons, List.dropWhile_cons, hx, ih'.1, ih'.2]

/-- A token: what the line parsers actually store — a non-empty stripped
line without an inner newline. -/
def Tok (l : List Char) : Prop :=
  l ≠ [] ∧ pyStrip l = l ∧ '\n' ∉ l

theorem CleanLine.tok {l : List Char} (h : CleanLine l) : Tok l :=
  ⟨h.1, h.2.1, h.2.2.1⟩

theorem mem_linesOf_no_nl (x : List Char) : ∀ L ∈ linesOf x, '\n' ∉ L := by
  induction x with
  | nil =>
    intro L hL
    have : L = [] := by simpa [linesOf] using hL
    simp [this]
  | cons c rest ih =>
    intro L hL
    by_cases hc : c = '\n'
    · simp only [linesOf, if_pos hc] at hL
      rcases List.mem_cons.mp hL with h | h
      · simp [h]
      · exact ih L h
    · simp only [linesOf, if_neg hc] at hL
      rcases hr : linesOf rest with _ | ⟨L0, Ls⟩
      · exact absurd hr (linesOf_ne_nil rest)
      · rw [hr] at hL
        simp only [consHead] at hL
        rcases List.mem_cons.mp hL with h | h
        · subst h
          intro hmem
          rcases List.mem_cons.mp hmem with h | h
          · exact hc h.symm
          · exact ih L0 (by rw [hr]; exact List.mem_cons_self L0 Ls) h
        · exact ih L (by rw [hr]; exact List.mem_cons_of_mem L0 h)

theorem mem_pyStrip_sub {l : List Char} {c : Char} (h : c ∈ pyStrip l) : c ∈ l := by
  unfold pyStrip at h
  rw [List.mem_reverse] at h
  have h1 := (List.dropWhile_sublist (l := (l.dropWhile isWS).reverse) isWS).mem h
  rw [List.mem_reverse] at h1
  exact (List.dropWhile_sublist isWS).mem h1

theorem dropWhile_head_false (p : Char → Bool) :
    ∀ (l : List Char) (c : Char), (l.dropWhile p).head? = some c → p c = false := by
  intro l
  induction l with
  | nil => intro c h; simp at h
  | cons a t ih =>
    intro c h
    rw [List.dropWhile_cons] at h
    by_cases ha : p a
    · rw [if_pos ha] at h
      exact ih c h
    · rw [if_neg ha] at h
      simp at h
      subst h
      simpa using ha

theorem getLast?_dropWhile (p : Char → Bool) :
    ∀ (l : List Char), l.dropWhile p ≠ [] → (l.dropWhile p).getLast? = l.getLast? := by
  intro l
  induction l with
  | nil => intro h; simp at h
  | cons a t ih =>
    intro h
    by_cases ha : p a
    · rw [List.dropWhile_cons, if_pos ha] at h ⊢
      have ht : t ≠ [] := by
        intro he
        rw [he] at h
        simp at h
      cases t with
      | nil => exact absurd rfl ht
      | cons b t' => rw [ih h, List.getLast?_cons_cons]
    · rw [List.dropWhile_cons, if_neg ha]

theorem pyStrip_head_not_ws (l : List Char) (c : Char) :
    (pyStrip l).head? = some c → isWS c = false := by
  intro h
  unfold pyStrip at h
  rw [← List.getLast?_eq_head?_reverse] at h
  set y := (l.dropWhile isWS).reverse with hy
  have hne : y.dropWhile isWS ≠ [] := by
    intro he
    rw [he] at h
    simp at h
  rw [getLast?_dropWhile isWS y hne] at h
  rw [hy, List.getLast?_reverse] at h
  exact dropWhile_head_false isWS l c h

theorem pyStrip_getLast_not_ws (l : List Char) (c : Char) :
    (pyStrip l).getLast? = some c → isWS c = false := by
  intro h
  unfold pyStrip at h
  rw [List.getLast?_reverse] at h
  exact dropWhile_head_false isWS _ c h

theorem pyStrip_idem (l : List Char) : pyStrip (pyStrip l) = pyStrip l :=
  pyStrip_eq_self (pyStrip l) (pyStrip_head_not_ws l) (pyStrip_getLast_not_ws l)

theorem mem_tokens_tok (x : List Char) : ∀ l ∈ tokens x, Tok l := by
  intro l hl
  simp only [tokens, tokenize, List.mem_filter, List.mem_map] at hl
  obtain ⟨⟨L, hLmem, hLstrip⟩, hne⟩ := hl
  subst hLstrip
  refine ⟨by simpa using hne, pyStrip_idem L, ?_⟩
  intro hmem
  exact mem_linesOf_no_nl x L hLmem (mem_pyStrip_sub hmem)

theorem tokens_nil : tokens [] = [] := rfl

theorem tokens_nl_cons (x : List Char) : tokens ('\n' :: x) = tokens x := by
  simp [tokens, linesOf, tokenize, List.filter_cons, pyStrip_nil]

theorem tokens_joinLines_append (ls : List (List Char)) (x : List Char)
    (h : ∀ l ∈ ls, Tok l) :
    tokens (joinLines ls ++ '\n' :: x) = ls ++ tokens x := by
  induction ls with
  | nil =>
    simp [joinLines, tokens_nl_cons]
  | cons l rest ih =>
    cases rest with
    | nil =>
      have hl := h l (List.mem_cons_self l [])
      show tokens (l ++ '\n' :: x) = [l] ++ tokens x
      rw [tokens_append_nl l x hl.2.2, tokenize_single_of l hl.1 hl.2.1]
    | cons l2 rest2 =>
      have hl := h l (List.mem_cons_self l _)
      show tokens ((l ++ '\n' :: joinLines (l2 :: rest2)) ++ '\n' :: x) = _
      rw [List.append_assoc, List.cons_append,
        tokens_append_nl l _ hl.2.2, tokenize_single_of l hl.1 hl.2.1,
        ih (fun a ha => h a (List.mem_cons_of_mem l ha))]
      simp

theorem tokenize_append (a b : List (List Char)) :
    tokenize (a ++ b) = tokenize a ++ tokenize b := by
  simp [tokenize, List.filter_append]

theorem tokens_joinLines (ls : List (List Char)) (h : ∀ l ∈ ls, Tok l) :
    tokens (joinLines ls) = ls := by
  induction ls with
  | nil => rfl
  | cons l rest ih =>
    cases rest with
    | nil =>
      have hl := h l (List.mem_cons_self l [])
      show tokens l = [l]
      rw [tokens_single l hl.2.2, tokenize_single_of l hl.1 hl.2.1]
    | cons l2 rest2 =>
      have hl := h l (List.mem_cons_self l _)
      show tokens (l ++ '\n' :: joinLines (l2 :: rest2)) = _
      rw [tokens_append_nl l _ hl.2.2, tokenize_single_of l hl.1 hl.2.1,
        ih (fun a ha => h a (List.mem_cons_of_mem l ha))]
      rfl

theorem pyTokens_eq_tokens (l : List Char) : pyTokens l = tokens l := by
  unfold pyTokens pySplitlines tokens
  by_cases hl : l = []
  · subst hl
    rfl
  · rw [if_neg hl]
    by_cases hlast : (linesOf l).getLast? = some []
    · rw [if_pos hlast]
      have hnn := linesOf_ne_nil l
      have hgl : (linesOf l).getLast hnn = [] := by
        rwa [List.getLast?_eq_getLast _ hnn, Option.some_inj] at hlast
      conv_rhs => rw [← List.dropLast_concat_getLast hnn]
      rw [tokenize_append, hgl]
      simp [tokenize, pyStrip_nil]
    · rw [if_neg hlast]

theorem tokens_joinBlocks (bss : List (List (List Char)))
    (hb : ∀ b ∈ bss, b ≠ []) (ht : ∀ b ∈ bss, ∀ l ∈ b, Tok l) :
    tokens (joinBlocks (bss.map joinLines)) = bss.flatten := by
  induction bss with
  | nil => rfl
  | cons b rest ih =>
    cases rest with
    | nil =>
      show tokens (joinLines b) = b ++ []
      rw [tokens_joinLines b (ht b (List.mem_cons_self b _)), List.append_nil]
    | cons b2 rest2 =>
      show tokens (joinLines b ++ '\n' :: '\n' :: joinBlocks ((b2 :: rest2).map joinLines)) = _
      rw [tokens_joinLines_append b _ (ht b (List.mem_cons_self b _)), tokens_nl_cons,
        ih (fun x hx => hb x (List.mem_cons_of_mem b hx))
          (fun x hx => ht x (List.mem_cons_of_mem b hx))]
      rfl

theorem blocks_flatMap_eq (bss : List (List (List Char))) (hne : bss ≠ []) :
    (bss.flatMap fun b => joinLines b ++ ['\n', '\n']) =
      joinBlocks (bss.map joinLines) ++ ['\n', '\n'] := by
  induction bss with
  | nil => exact absurd rfl hne
  | cons b rest ih =>
    cases rest with
    | nil => simp [joinBlocks]
    | cons b2 rest2 =>
      rw [List.flatMap_cons, ih (by simp)]
      show _ = (joinLines b ++ '\n' :: '\n' :: joinBlocks ((b2 :: rest2).map joinLines)) ++ _
      simp

theorem pyStrip_append_nlnl (y : List Char) (hne : y ≠ [])
    (hhead : ∀ c, y.head? = some c → isWS c = false)
    (hlast : ∀ c, y.getLast? = some c → isWS c = false) :
    pyStrip (y ++ ['\n', '\n']) = y := by
  unfold pyStrip
  have h1 : (y ++ ['\n', '\n']).dropWhile isWS = y ++ ['\n', '\n'] := by
    apply dropWhile_eq_self_of_head
    intro c hc
    apply hhead
    cases y with
    | nil => exact absurd rfl hne
    | cons a t => simpa using hc
  rw [h1]
  have h2 : (y ++ ['\n', '\n']).reverse = '\n' :: '\n' :: y.reverse := by simp
  rw [h2]
  have h3 : ∀ c, (y.reverse.head? = some c) → isWS c = false := by
    intro c hc
    apply hlast
    rwa [List.getLast?_eq_head?_reverse]
  have h4 : List.dropWhile isWS ('\n' :: '\n' :: y.reverse) = List.dropWhile isWS y.reverse := by
    rw [List.dropWhile_cons, if_pos (by decide : isWS '\n' = true),
      List.dropWhile_cons, if_pos (by decide : isWS '\n' = true)]
  rw [h4, dropWhile_eq_self_of_head h3, List.reverse_reverse]

/- ### Digit-string lemmas -/

theorem isDig_digitChar (d : Nat) (h : d < 10) : isDig (digitChar d) = true := by
  interval_cases d <;> decide

theorem natDigitsGo_all_digits :
    ∀ (fuel n : Nat), ∀ c ∈ natDigitsGo fuel n, isDig c = true := by
  intro fuel
  induction fuel with
  | zero => intro n c hc; simp [natDigitsGo] at hc
  | succ f ih =>
    intro n c hc
    unfold natDigitsGo at hc
    by_cases h10 : n < 10
    · rw [if_pos h10] at hc
      simp at hc
      subst hc
      exact isDig_digitChar n h10
    · rw [if_neg h10] at hc
      rcases List.mem_append.mp hc with h | h
      · exact ih _ c h
      · simp at h
        subst h
        exact isDig_digitChar _ (Nat.mod_lt n (by norm_num))

theorem natDigits_all_digits (n : Nat) : ∀ c ∈ natDigits n, isDig c = true :=
  natDigitsGo_all_digits (n + 1) n

theorem natDigits_ne_nil (n : Nat) : natDigits n ≠ [] := by
  unfold natDigits natDigitsGo
  split <;> simp

theorem isDig_not_ws {c : Char} (h : isDig c = true) : isWS c = false := by
  by_contra hws
  rw [Bool.not_eq_false] at hws
  unfold isWS at hws
  simp only [Bool.or_eq_true, decide_eq_true_eq] at hws
  rcases hws with ((((he | he) | he) | he) | he) | he <;>
    · subst he
      exact absurd h (by decide)

theorem isDig_not_underscore {c : Char} (h : isDig c = true) : c ≠ '_' := by
  intro he
  subst he
  exact absurd h (by decide)

theorem duGo_of_all_digits :
    ∀ (l : List Char), (∀ c ∈ l, isDig c = true) → duGo false l = true := by
  intro l
  induction l with
  | nil => intro _; rfl
  | cons c rest ih =>
    intro h
    have hc := h c (List.mem_cons_self c rest)
    have hrest := fun a ha => h a (List.mem_cons_of_mem c ha)
    show (if c = '_' then duGo true rest else isDig c && duGo false rest) = true
    rw [if_neg (isDig_not_underscore hc), hc, ih hrest]
    rfl

theorem isPyInt_of_all_digits (l : List Char) (hne : l ≠ [])
    (h : ∀ c ∈ l, isDig c = true) : isPyInt l = true := by
  cases l with
  | nil => exact absurd rfl hne
  | cons c rest =>
    have hc := h c (List.mem_cons_self c rest)
    have hcp : c ≠ '+' := by intro he; subst he; exact absurd hc (by decide)
    have hcm : c ≠ '-' := by intro he; subst he; exact absurd hc (by decide)
    show (if c = '+' || c = '-' then duGo true rest else duGo true (c :: rest)) = true
    rw [if_neg (by simp [hcp, hcm])]
    show (isDig c && duGo false rest) = true
    rw [hc, duGo_of_all_digits rest (fun a ha => h a (List.mem_cons_of_mem c ha))]
    rfl

theorem isPyInt_natDigits (n : Nat) : isPyInt (natDigits n) = true :=
  isPyInt_of_all_digits _ (natDigits_ne_nil n) (natDigits_all_digits n)

theorem head?_mem {α : Type} {l : List α} {c : α} (h : l.head? = some c) : c ∈ l := by
  cases l with
  | nil => simp at h
  | cons a t =>
    simp at h
    subst h
    exact List.mem_cons_self a t

theorem getLast?_mem {α : Type} {l : List α} {c : α} (h : l.getLast? = some c) : c ∈ l := by
  rw [List.getLast?_eq_head?_reverse] at h
  exact List.mem_reverse.mp (head?_mem h)

theorem tok_natDigits (n : Nat) : Tok (natDigits n) := by
  have hd := natDigits_all_digits n
  refine ⟨natDigits_ne_nil n, ?_, ?_⟩
  · apply pyStrip_eq_self
    · intro c hc
      exact isDig_not_ws (hd c (head?_mem hc))
    · intro c hc
      exact isDig_not_ws (hd c (getLast?_mem hc))
  · intro hmem
    exact absurd (hd '\n' hmem) (by decide)

/- ### Block-grouping lemmas -/

/-- A well-formed rendered block: an integer head line followed by
non-integer lines (the shape every real SRT block has once parsed into
stripped lines). -/
def WFBlock (b : List (List Char)) : Prop :=
  ∃ h t, b = h :: t ∧ isPyInt h = true ∧ ∀ l ∈ t, isPyInt l = false

theorem groupTokGo_props :
    ∀ (fuel : Nat) (ts : List (List Char)), ts.length < fuel →
      (groupTokGo fuel ts).flatten = ts ∧
        ∀ b ∈ groupTokGo fuel ts, b ≠ [] ∧ ∀ l ∈ b.tail, isPyInt l = false := by
  intro fuel
  induction fuel with
  | zero => intro ts h; omega
  | succ f ih =>
    intro ts h
    cases ts with
    | nil => exact ⟨rfl, by intro b hb; simp [groupTokGo] at hb⟩
    | cons t rest =>
      have hlen : (rest.dropWhile fun x => !isPyInt x).length < f := by
        have := (List.dropWhile_sublist (l := rest) (fun x => !isPyInt x)).length_le
        simp at h
        omega
      obtain ⟨ih1, ih2⟩ := ih _ hlen
      constructor
      · show (t :: rest.takeWhile fun x => !isPyInt x) ++ _ = _
        rw [List.cons_append, ih1, List.takeWhile_append_dropWhile]
      · intro b hb
        rcases List.mem_cons.mp hb with hb | hb
        · subst hb
          refine ⟨by simp, ?_⟩
          intro l hl
          have := List.mem_takeWhile_imp hl
          simpa using this
        · exact ih2 b hb

theorem groupTok_props (ts : List (List Char)) :
    (groupTok ts).flatten = ts ∧
      ∀ b ∈ groupTok ts, b ≠ [] ∧ ∀ l ∈ b.tail, isPyInt l = false :=
  groupTokGo_props (ts.length + 1) ts (by omega)

theorem flatten_head_int {bss : List (List (List Char))}
    (h : ∀ b ∈ bss, WFBlock b) :
    ∀ hd, (List.flatten bss).head? = some hd → isPyInt hd = true := by
  intro hd hhd
  cases bss with
  | nil => simp at hhd
  | cons b rest =>
    obtain ⟨h0, t0, hb, hint, _⟩ := h b (List.mem_cons_self b rest)
    subst hb
    simp at hhd
    subst hhd
    exact hint

theorem groupTokGo_flatten :
    ∀ (bss : List (List (List Char))) (fuel : Nat), (List.flatten bss).length < fuel →
      (∀ b ∈ bss, WFBlock b) → groupTokGo fuel (List.flatten bss) = bss := by
  intro bss
  induction bss with
  | nil =>
    intro fuel hf _
    cases fuel with
    | zero => omega
    | succ f => rfl
  | cons b rest ih =>
    intro fuel hf hwf
    obtain ⟨h0, t0, hb, hint, htail⟩ := hwf b (List.mem_cons_self b rest)
    subst hb
    have hsplit := takeWhile_append_of (fun x => !isPyInt x) t0 (List.flatten rest)
      (fun x hx => by simp [htail x hx])
      (fun hd hhd => by
        simp [flatten_head_int (fun x hx => hwf x (List.mem_cons_of_mem _ hx)) hd hhd])
    cases fuel with
    | zero => omega
    | succ f =>
      show groupTokGo (f + 1) ((h0 :: t0) ++ List.flatten rest) = _
      rw [List.cons_append]
      show (h0 :: ((t0 ++ List.flatten rest).takeWhile fun x => !isPyInt x)) ::
          groupTokGo f ((t0 ++ List.flatten rest).dropWhile fun x => !isPyInt x) = _
      rw [hsplit.1, hsplit.2]
      congr 1
      apply ih
      · simp at hf ⊢
        omega
      · exact fun x hx => hwf x (List.mem_cons_of_mem _ hx)

theorem groupTok_flatten (bss : List (List (List Char)))
    (hwf : ∀ b ∈ bss, WFBlock b) : groupTok (List.flatten bss) = bss :=
  groupTokGo_flatten bss _ (by omega) hwf

theorem transGroupGo_flatten :
    ∀ (bss : List (List (List Char))) (fuel : Nat), (List.flatten bss).length < fuel →
      (∀ b ∈ bss, WFBlock b) →
      transGroupGo fuel (List.flatten bss) =
        bss.map fun b => ⟨pyIntVal (b.headD []), b⟩ := by
  intro bss
  induction bss with
  | nil =>
    intro fuel hf _
    cases fuel with
    | zero => omega
    | succ f => rfl
  | cons b rest ih =>
    intro fuel hf hwf
    obtain ⟨h0, t0, hb, hint, htail⟩ := hwf b (List.mem_cons_self b rest)
    subst hb
    have hsplit := takeWhile_append_of (fun x => !isPyInt x) t0 (List.flatten rest)
      (fun x hx => by simp [htail x hx])
      (fun hd hhd => by
        simp [flatten_head_int (fun x hx => hwf x (List.mem_cons_of_mem _ hx)) hd hhd])
    cases fuel with
    | zero => omega
    | succ f =>
      show transGroupGo (f + 1) ((h0 :: t0) ++ List.flatten rest) = _
      rw [List.cons_append]
      show (if isPyInt h0 = true then _ else _) = _
      rw [if_pos hint]
      rw [hsplit.1, hsplit.2]
      rw [List.map_cons]
      congr 1
      apply ih
      · simp at hf ⊢
        omega
      · exact fun x hx => hwf x (List.mem_cons_of_mem _ hx)

theorem transGroup_flatten (bss : List (List (List Char)))
    (hwf : ∀ b ∈ bss, WFBlock b) :
    transGroup (List.flatten bss) = bss.map fun b => ⟨pyIntVal (b.headD []), b⟩ :=
  transGroupGo_flatten bss _ (by omega) hwf

/- ### Claim C5: reassembly is invariant under input order -/

theorem normalizeBlocks_length (bs : List (List (List Char))) :
    (normalizeBlocks bs).length = bs.length := by
  simp [normalizeBlocks]

theorem sortChunks_eq_of_perm (cs cs' : List RChunk) (hperm : cs.Perm cs')
    (hids : cs.Pairwise fun a b => a.id ≠ b.id) :
    sortChunks cs = sortChunks cs' := by
  haveI : IsTotal RChunk fun a b => a.id ≤ b.id := ⟨fun a b => Int.le_total a.id b.id⟩
  haveI : IsTrans RChunk fun a b => a.id ≤ b.id := ⟨fun _ _ _ hab hbc => le_trans hab hbc⟩
  haveI : IsAntisymm RChunk fun a b => a.id < b.id :=
    ⟨fun _ _ h1 h2 => absurd (lt_trans h1 h2) (lt_irrefl _)⟩
  have hs1 := List.sorted_insertionSort (fun a b : RChunk => a.id ≤ b.id) cs
  have hs2 := List.sorted_insertionSort (fun a b : RChunk => a.id ≤ b.id) cs'
  have hp : (sortChunks cs).Perm (sortChunks cs') :=
    (List.perm_insertionSort (fun a b : RChunk => a.id ≤ b.id) cs).trans
      (hperm.trans (List.perm_insertionSort (fun a b : RChunk => a.id ≤ b.id) cs').symm)
  have hp1 : (sortChunks cs).Pairwise fun a b => a.id ≠ b.id :=
    ((List.perm_insertionSort (fun a b : RChunk => a.id ≤ b.id) cs).pairwise_iff
      fun h => Ne.symm h).mpr hids
  have hp2 : (sortChunks cs').Pairwise fun a b => a.id ≠ b.id :=
    ((List.perm_insertionSort (fun a b : RChunk => a.id ≤ b.id) cs').pairwise_iff
      fun h => Ne.symm h).mpr
      ((hperm.pairwise_iff fun h => Ne.symm h).mp hids)
  have hlt1 : (sortChunks cs).Pairwise fun a b => a.id < b.id :=
    (hs1.and hp1).imp fun h => lt_of_le_of_ne h.1 h.2
  have hlt2 : (sortChunks cs').Pairwise fun a b => a.id < b.id :=
    (hs2.and hp2).imp fun h => lt_of_le_of_ne h.1 h.2
  exact List.eq_of_perm_of_sorted hp hlt1 hlt2

/-- C5: with pairwise-distinct chunk ids, `reassemble_srt` computes the
same result for every permutation of its input — the output depends only
on the chunks taken in id order — and the subtitle count is the total
number of records parsed from the supplied chunks, independent of order. -/
theorem reassemble_order_invariant (cs cs' : List RChunk) (norm : Bool)
    (hperm : cs.Perm cs') (hids : cs.Pairwise fun a b => a.id ≠ b.id) :
    reassembleSrt cs norm = reassembleSrt cs' norm ∧
      (reassembleSrt cs norm).subtitle_count =
        (cs.map fun c => (reasmParse c.translated_content).length).sum := by
  constructor
  · unfold reassembleSrt
    rw [sortChunks_eq_of_perm cs cs' hperm hids]
  · show (if norm then _ else _ : List _).length = _
    have hlen : ((sortChunks cs).flatMap fun c => reasmParse c.translated_content).length =
        (cs.map fun c => (reasmParse c.translated_content).length).sum := by
      rw [List.length_flatMap]
      exact ((List.perm_insertionSort (fun a b : RChunk => a.id ≤ b.id) cs).map
        (List.length ∘ fun c => reasmParse c.translated_content)).sum_eq
    cases norm with
    | false => simpa using hlen
    | true => simpa [normalizeBlocks_length] using hlen

/-- Witness for C5 at concrete chunks: swapping two chunks with ids 2 and 1
leaves the reassembled result unchanged, and the count is the two parsed
records. -/
theorem reassemble_order_invariant_witness :
    reassembleSrt [⟨2, "9\nt2\nx".data⟩, ⟨1, "1\nt1\ny".data⟩] true =
        reassembleSrt [⟨1, "1\nt1\ny".data⟩, ⟨2, "9\nt2\nx".data⟩] true ∧
      (reassembleSrt [⟨2, "9\nt2\nx".data⟩, ⟨1, "1\nt1\ny".data⟩] true).subtitle_count = 2 :=
  ⟨(reassemble_order_invariant [⟨2, "9\nt2\nx".data⟩, ⟨1, "1\nt1\ny".data⟩]
      [⟨1, "1\nt1\ny".data⟩, ⟨2, "9\nt2\nx".data⟩] true (by decide) (by decide)).1,
    (reassemble_order_invariant [⟨2, "9\nt2\nx".data⟩, ⟨1, "1\nt1\ny".data⟩]
      [⟨1, "1\nt1\ny".data⟩, ⟨2, "9\nt2\nx".data⟩] true (by decide) (by decide)).2.trans
      (by decide)⟩

/- ### Claim C10: integer-shaped text lines start new records -/

/-- C10: (a) in every parsed reassembly input, a line accepted by
`int(...)` can only stand at the head of a record — every such line starts
a new record, and nothing is dropped (the records flatten back to the
stripped non-blank lines); (b) concretely, a chunk holding two SRT blocks
whose first subtitle has the digits-only text line `"101"` reassembles to
`subtitle_count = 3`, strictly more than its 2 blocks, and with
`normalize_ids = true` that text line is overwritten with the sequence
number `2`. -/
theorem reassemble_int_lines_start_records :
    (∀ content : List Char,
      (reasmParse content).flatten = pyTokens content ∧
        ∀ b ∈ reasmParse content, b ≠ [] ∧ ∀ l ∈ b.tail, isPyInt l = false) ∧
    (reassembleSrt
        [⟨1, ("1\n00:00:01,000 --> 00:00:02,000\nRoom\n101\n\n" ++
          "2\n00:00:03,000 --> 00:00:04,000\nBye").data⟩] true =
      ⟨("1\n00:00:01,000 --> 00:00:02,000\nRoom\n\n2\n\n" ++
        "3\n00:00:03,000 --> 00:00:04,000\nBye").data, 3⟩) := by
  constructor
  · intro content
    exact groupTok_props (pyTokens content)
  · decide

/-- Witness for C10's universal part at a concrete chunk content: its
parsed records flatten back to its stripped non-blank lines. -/
theorem reassemble_int_lines_start_records_witness :
    (reasmParse "1\nt\nRoom\n101".data).flatten = pyTokens "1\nt\nRoom\n101".data :=
  (reassemble_int_lines_start_records.1 "1\nt\nRoom\n101".data).1

/- ### Joining helpers and claim C6 -/

theorem head?_append_left {α : Type} {l r : List α} (h : l ≠ []) :
    (l ++ r).head? = l.head? := by
  cases l with
  | nil => exact absurd rfl h
  | cons a t => rfl

theorem append_ne_nil_left {α : Type} {l r : List α} (h : l ≠ []) : l ++ r ≠ [] := by
  cases l with
  | nil => exact absurd rfl h
  | cons a t => simp

theorem joinLines_ne_nil (ls : List (List Char)) (h : ls ≠ [])
    (hall : ∀ x ∈ ls, x ≠ []) : joinLines ls ≠ [] := by
  cases ls with
  | nil => exact absurd rfl h
  | cons l rest =>
    cases rest with
    | nil => exact hall l (List.mem_cons_self l _)
    | cons l2 r2 =>
      exact append_ne_nil_left (hall l (List.mem_cons_self l _))

theorem joinLines_head? (l : List Char) (rest : List (List Char)) (h : l ≠ []) :
    (joinLines (l :: rest)).head? = l.head? := by
  cases rest with
  | nil => rfl
  | cons l2 r2 => exact head?_append_left h

theorem joinLines_getLast? :
    ∀ (ls : List (List Char)), ls ≠ [] → (∀ x ∈ ls, x ≠ []) →
      ∃ x, ls.getLast? = some x ∧ (joinLines ls).getLast? = x.getLast? := by
  intro ls
  induction ls with
  | nil => intro h _; exact absurd rfl h
  | cons l rest ih =>
    intro _ hall
    cases rest with
    | nil => exact ⟨l, rfl, rfl⟩
    | cons l2 r2 =>
      obtain ⟨x, hx1, hx2⟩ := ih (by simp) (fun a ha => hall a (List.mem_cons_of_mem l ha))
      refine ⟨x, ?_, ?_⟩
      · rwa [List.getLast?_cons_cons]
      · show ((l ++ '\n' :: joinLines (l2 :: r2))).getLast? = _
        rw [List.getLast?_append]
        have hjl : joinLines (l2 :: r2) ≠ [] :=
          joinLines_ne_nil _ (by simp) (fun a ha => hall a (List.mem_cons_of_mem l ha))
        cases hj : joinLines (l2 :: r2) with
        | nil => exact absurd hj hjl
        | cons c t =>
          rw [List.getLast?_cons_cons, ← hj, hx2]
          cases hx : x.getLast? with
          | none =>
            exfalso
            have hxne : x ≠ [] := hall x (List.mem_cons_of_mem l (getLast?_mem hx1))
            rw [List.getLast?_eq_getLast x hxne] at hx
            exact absurd hx (by simp)
          | some c2 => rfl

theorem joinBlocks_ne_nil (bs : List (List Char)) (h : bs ≠ [])
    (hall : ∀ x ∈ bs, x ≠ []) : joinBlocks bs ≠ [] := by
  cases bs with
  | nil => exact absurd rfl h
  | cons b rest =>
    cases rest with
    | nil => exact hall b (List.mem_cons_self b _)
    | cons b2 r2 => exact append_ne_nil_left (hall b (List.mem_cons_self b _))

theorem joinBlocks_head? (b : List Char) (rest : List (List Char)) (h : b ≠ []) :
    (joinBlocks (b :: rest)).head? = b.head? := by
  cases rest with
  | nil => rfl
  | cons b2 r2 => exact head?_append_left h

theorem joinBlocks_getLast? :
    ∀ (bs : List (List Char)), bs ≠ [] → (∀ x ∈ bs, x ≠ []) →
      ∃ x, bs.getLast? = some x ∧ (joinBlocks bs).getLast? = x.getLast? := by
  intro bs
  induction bs with
  | nil => intro h _; exact absurd rfl h
  | cons b rest ih =>
    intro _ hall
    cases rest with
    | nil => exact ⟨b, rfl, rfl⟩
    | cons b2 r2 =>
      obtain ⟨x, hx1, hx2⟩ := ih (by simp) (fun a ha => hall a (List.mem_cons_of_mem b ha))
      refine ⟨x, ?_, ?_⟩
      · rwa [List.getLast?_cons_cons]
      · show ((b ++ '\n' :: '\n' :: joinBlocks (b2 :: r2))).getLast? = _
        rw [List.getLast?_append]
        have hjb : joinBlocks (b2 :: r2) ≠ [] :=
          joinBlocks_ne_nil _ (by simp) (fun a ha => hall a (List.mem_cons_of_mem b ha))
        cases hj : joinBlocks (b2 :: r2) with
        | nil => exact absurd hj hjb
        | cons c t =>
          rw [List.getLast?_cons_cons, List.getLast?_cons_cons, ← hj, hx2]
          cases hx : x.getLast? with
          | none =>
            exfalso
            have hxne : x ≠ [] := hall x (List.mem_cons_of_mem b (getLast?_mem hx1))
            rw [List.getLast?_eq_getLast x hxne] at hx
            exact absurd hx (by simp)
          | some c2 => rfl

theorem flatMap_if_nonempty (bss : List (List (List Char)))
    (hb : ∀ b ∈ bss, b ≠ []) :
    (bss.flatMap fun b => if b = [] then [] else joinLines b ++ ['\n', '\n']) =
      bss.flatMap fun b => joinLines b ++ ['\n', '\n'] := by
  induction bss with
  | nil => rfl
  | cons b rest ih =>
    rw [List.flatMap_cons, List.flatMap_cons, if_neg (hb b (List.mem_cons_self b _)),
      ih (fun a ha => hb a (List.mem_cons_of_mem b ha))]

/-- The reassembler's final content: joining each block's lines and
stripping the result leaves exactly the blank-line-separated blocks. -/
theorem strip_blockChain (bss : List (List (List Char)))
    (hb : ∀ b ∈ bss, b ≠ []) (ht : ∀ b ∈ bss, ∀ l ∈ b, Tok l) :
    pyStrip (bss.flatMap fun b => if b = [] then [] else joinLines b ++ ['\n', '\n']) =
      joinBlocks (bss.map joinLines) := by
  cases hbss : bss with
  | nil => rfl
  | cons b0 rest =>
    rw [← hbss, flatMap_if_nonempty bss hb, blocks_flatMap_eq bss (by rw [hbss]; simp)]
    have hjlne : ∀ x ∈ bss.map joinLines, x ≠ [] := by
      intro x hx
      obtain ⟨b, hbmem, hbeq⟩ := List.mem_map.mp hx
      exact hbeq ▸ joinLines_ne_nil b (hb b hbmem) (fun l hl => (ht b hbmem l hl).1)
    apply pyStrip_append_nlnl
    · rw [hbss]
      exact joinBlocks_ne_nil _ (by simp) (by rw [← hbss]; exact hjlne)
    · intro c hc
      rw [hbss] at hc
      have hb0 : b0 ∈ bss := by rw [hbss]; exact List.mem_cons_self b0 rest
      cases hb0l : b0 with
      | nil => exact absurd hb0l (hb b0 hb0)
      | cons l0 t0 =>
        have hl0 := ht b0 hb0 l0 (by rw [hb0l]; exact List.mem_cons_self l0 t0)
        rw [List.map_cons, joinBlocks_head? _ _ (joinLines_ne_nil b0 (hb b0 hb0)
          (fun l hl => (ht b0 hb0 l hl).1)), hb0l,
          joinLines_head? l0 t0 hl0.1] at hc
        exact pyStrip_head_not_ws l0 c (by rwa [hl0.2.1])
    · intro c hc
      obtain ⟨x, hx1, hx2⟩ := joinBlocks_getLast? (bss.map joinLines)
        (by rw [hbss]; simp) hjlne
      rw [hx2] at hc
      obtain ⟨bl, hbl1, hbl2⟩ := List.mem_map.mp (getLast?_mem hx1)
      subst hbl2
      obtain ⟨y, hy1, hy2⟩ := joinLines_getLast? bl (hb bl hbl1)
        (fun l hl => (ht bl hbl1 l hl).1)
      rw [hy2] at hc
      have hyt := ht bl hbl1 y (getLast?_mem hy1)
      exact pyStrip_getLast_not_ws y c (by rwa [hyt.2.1])

theorem mem_normalizeBlocks {bs : List (List (List Char))} {b : List (List Char)}
    (hmem : b ∈ normalizeBlocks bs) :
    ∃ i, ∃ _ : i < bs.length,
      b = (match bs[i] with
        | [] => ([] : List (List Char))
        | _ :: t => natDigits (i + 1) :: t) := by
  obtain ⟨p, hp, hfp⟩ := List.mem_map.mp hmem
  obtain ⟨i, x⟩ := p
  obtain ⟨hi, hx⟩ := List.mem_enum hp
  refine ⟨i, hi, ?_⟩
  rw [← hfp, hx]

theorem reassembleSrt_count (cs : List RChunk) (norm : Bool) :
    (reassembleSrt cs norm).subtitle_count =
      (cs.map fun c => (reasmParse c.translated_content).length).sum := by
  show (if norm then _ else _ : List _).length = _
  have hlen : ((sortChunks cs).flatMap fun c => reasmParse c.translated_content).length =
      (cs.map fun c => (reasmParse c.translated_content).length).sum := by
    rw [List.length_flatMap]
    exact ((List.perm_insertionSort (fun a b : RChunk => a.id ≤ b.id) cs).map
      (List.length ∘ fun c => reasmParse c.translated_content)).sum_eq
  cases norm with
  | false => simpa using hlen
  | true => simpa [normalizeBlocks_length] using hlen

theorem normalizeBlocks_getElem? (bs : List (List (List Char))) (n : Nat) :
    (normalizeBlocks bs)[n]? = (bs[n]?).map fun x =>
      match x with
      | [] => ([] : List (List Char))
      | _ :: t => natDigits (n + 1) :: t := by
  unfold normalizeBlocks
  rw [List.getElem?_map, List.getElem?_enum]
  cases bs[n]? <;> rfl

/-- C6: with `normalize_ids = true`, the reassembled document's records
carry the id fields `1, 2, ..., N` in order — `N` being the reported
subtitle count — whatever ids the supplied chunks' records carried; and
`N` is the total number of records parsed from the supplied chunks. -/
theorem reassemble_normalize_renumbers (chunks : List RChunk) :
    ((reasmParse (reassembleSrt chunks true).content).map fun b => b.head?) =
      (List.range (reassembleSrt chunks true).subtitle_count).map
        (fun i => some (natDigits (i + 1))) ∧
    (reassembleSrt chunks true).subtitle_count =
      (chunks.map fun c => (reasmParse c.translated_content).length).sum := by
  refine ⟨?_, reassembleSrt_count chunks true⟩
  set all := (sortChunks chunks).flatMap (fun c => reasmParse c.translated_content) with hall
  have hF1 : ∀ b ∈ all, b ≠ [] ∧ ∀ l ∈ b.tail, isPyInt l = false := by
    intro b hb
    obtain ⟨c, _, hbc⟩ := List.mem_flatMap.mp hb
    exact (groupTok_props _).2 b hbc
  have hF2 : ∀ b ∈ all, ∀ l ∈ b, Tok l := by
    intro b hb l hl
    obtain ⟨c, _, hbc⟩ := List.mem_flatMap.mp hb
    have hlf : l ∈ (reasmParse c.translated_content).flatten :=
      List.mem_flatten.mpr ⟨b, hbc, hl⟩
    rw [show reasmParse c.translated_content = groupTok (pyTokens c.translated_content)
      from rfl, (groupTok_props _).1, pyTokens_eq_tokens] at hlf
    exact mem_tokens_tok _ l hlf
  have hns : ∀ b ∈ normalizeBlocks all, (WFBlock b ∧ b ≠ []) ∧ ∀ l ∈ b, Tok l := by
    intro b hb
    obtain ⟨i, hi, hbeq⟩ := mem_normalizeBlocks hb
    have hmem : all[i] ∈ all := List.getElem_mem hi
    obtain ⟨hne0, htail0⟩ := hF1 _ hmem
    cases hcase : all[i] with
    | nil => exact absurd hcase hne0
    | cons h0 t0 =>
      rw [hcase] at hbeq
      subst hbeq
      refine ⟨⟨⟨natDigits (i + 1), t0, rfl, isPyInt_natDigits _, ?_⟩, by simp⟩, ?_⟩
      · intro l hl
        apply htail0
        rw [hcase]
        exact hl
      · intro l hl
        rcases List.mem_cons.mp hl with hl | hl
        · exact hl ▸ tok_natDigits (i + 1)
        · exact hF2 _ hmem l (by rw [hcase]; exact List.mem_cons_of_mem h0 hl)
  have h1 : (reassembleSrt chunks true).content =
      joinBlocks ((normalizeBlocks all).map joinLines) := by
    have h0 : (reassembleSrt chunks true).content =
        pyStrip ((normalizeBlocks all).flatMap fun b =>
          if b = [] then [] else joinLines b ++ ['\n', '\n']) := rfl
    rw [h0]
    exact strip_blockChain _ (fun b hb => (hns b hb).1.2) (fun b hb => (hns b hb).2)
  have h2 : tokens (reassembleSrt chunks true).content = (normalizeBlocks all).flatten := by
    rw [h1]
    exact tokens_joinBlocks _ (fun b hb => (hns b hb).1.2) (fun b hb => (hns b hb).2)
  have h3 : reasmParse (reassembleSrt chunks true).content = normalizeBlocks all := by
    show groupTok (pyTokens _) = _
    rw [pyTokens_eq_tokens, h2]
    exact groupTok_flatten _ (fun b hb => (hns b hb).1.1)
  rw [h3]
  have hcount : (reassembleSrt chunks true).subtitle_count =
      (normalizeBlocks all).length := rfl
  rw [hcount, normalizeBlocks_length]
  apply List.ext_getElem?
  intro n
  rw [List.getElem?_map, List.getElem?_map, normalizeBlocks_getElem?]
  by_cases hn : n < all.length
  · rw [List.getElem?_range hn, List.getElem?_eq_getElem hn]
    have hmem : all[n] ∈ all := List.getElem_mem hn
    cases hcase : all[n] with
    | nil => exact absurd hcase (hF1 _ hmem).1
    | cons h0 t0 => rfl
  · rw [List.getElem?_eq_none (by omega), List.getElem?_eq_none (by simpa using hn)]
    rfl

/- ### Claim C4: chunk record counts -/

theorem toChunksGo_sum (k : Nat) (hk : 1 ≤ k) :
    ∀ (fuel : Nat) (bs : List SBlock), bs.length < fuel →
      ((toChunksGo k fuel bs).map List.length).sum = bs.length := by
  intro fuel
  induction fuel with
  | zero => intro bs h; omega
  | succ f ih =>
    intro bs h
    cases bs with
    | nil => simp [toChunksGo]
    | cons b rest =>
      have hlen : (rest.drop (k - 1)).length < f := by
        rw [List.length_drop]
        simp at h
        omega
      show (b :: rest.take (k - 1)).length + ((toChunksGo k f (rest.drop (k - 1))).map _).sum = _
      rw [ih _ hlen]
      simp only [List.length_cons, List.length_take, List.length_drop]
      omega

/-- C4: for every document and chunk size `k ≥ 1`, the per-chunk record
counts of the splitter's grouping sum to the reported `total_subtitles`,
which is the number of blocks the splitter parsed from the document, and
the returned chunk list covers exactly those groups.  (This is proved of
the splitter as intended; the shipped pattern makes `split_srt` raise on
every input — see `splitAgentError` — contradicting its own tests.) -/
theorem split_counts (content : List Char) (k : Nat) (hk : 1 ≤ k) :
    ((toChunks k (splitParse content)).map List.length).sum =
        (splitSrt content k).total_subtitles ∧
      (splitSrt content k).total_subtitles = (splitParse content).length ∧
      (splitSrt content k).chunks.length = (toChunks k (splitParse content)).length := by
  refine ⟨?_, rfl, ?_⟩
  · show _ = (splitParse content).length
    exact toChunksGo_sum k hk _ _ (by omega)
  · show ((toChunks k (splitParse content)).enum.map _).length = _
    rw [List.length_map, List.enum_length]

set_option maxRecDepth 8000 in
/-- Witness for C4 on a five-record document with chunk size 2. -/
theorem split_counts_witness :
    1 ≤ 2 ∧
      ((toChunks 2 (splitParse ("1\n00:00:01,000 --> 00:00:02,000\na\n\n" ++
          "2\n00:00:03,000 --> 00:00:04,000\nb\n\n" ++
          "3\n00:00:05,000 --> 00:00:06,000\nc\n\n" ++
          "4\n00:00:07,000 --> 00:00:08,000\nd\n\n" ++
          "5\n00:00:09,000 --> 00:00:10,000\ne").data)).map List.length).sum =
        (splitSrt ("1\n00:00:01,000 --> 00:00:02,000\na\n\n" ++
          "2\n00:00:03,000 --> 00:00:04,000\nb\n\n" ++
          "3\n00:00:05,000 --> 00:00:06,000\nc\n\n" ++
          "4\n00:00:07,000 --> 00:00:08,000\nd\n\n" ++
          "5\n00:00:09,000 --> 00:00:10,000\ne").data 2).total_subtitles ∧
      (splitSrt ("1\n00:00:01,000 --> 00:00:02,000\na\n\n" ++
          "2\n00:00:03,000 --> 00:00:04,000\nb\n\n" ++
          "3\n00:00:05,000 --> 00:00:06,000\nc\n\n" ++
          "4\n00:00:07,000 --> 00:00:08,000\nd\n\n" ++
          "5\n00:00:09,000 --> 00:00:10,000\ne").data 2).total_subtitles = 5 :=
  ⟨by decide,
    (split_counts ("1\n00:00:01,000 --> 00:00:02,000\na\n\n" ++
      "2\n00:00:03,000 --> 00:00:04,000\nb\n\n" ++
      "3\n00:00:05,000 --> 00:00:06,000\nc\n\n" ++
      "4\n00:00:07,000 --> 00:00:08,000\nd\n\n" ++
      "5\n00:00:09,000 --> 00:00:10,000\ne").data 2 (by decide)).1,
    by decide⟩

/- ### Claim C7: malformed records pass through untranslated -/

/-- C7: a parsed block with fewer than two lines after its id line is
emitted verbatim — its slot in the translated output is its own joined
lines, and the whole translated content is just those slots joined with
blank lines — and the provider is never consulted for it: two providers
that agree on the well-formed blocks' text blocks produce identical
results, whatever they do elsewhere. -/
theorem translator_malformed_passthrough (prov prov' : List Char → List Char)
    (glossary : List (List Char × List Char)) (content : List Char) :
    (translateChunkWith prov glossary content).translated_content =
        joinBlocks ((transBlocks content).map (transBlockOut prov)) ∧
      (∀ (i : Nat) (b : LBlock), (transBlocks content)[i]? = some b → b.lines.length < 3 →
        ((transBlocks content).map (transBlockOut prov))[i]? = some (joinLines b.lines)) ∧
      ((∀ b ∈ transBlocks content, ¬b.lines.length < 3 → prov (textOf b) = prov' (textOf b)) →
        translateChunkWith prov glossary content = translateChunkWith prov' glossary content) := by
  refine ⟨rfl, ?_, ?_⟩
  · intro i b hb hshort
    rw [List.getElem?_map, hb]
    show some (transBlockOut prov b) = _
    rw [transBlockOut, if_pos hshort]
  · intro hagree
    show TransResult.mk _ _ = TransResult.mk _ _
    have : (transBlocks content).map (transBlockOut prov) =
        (transBlocks content).map (transBlockOut prov') := by
      apply List.map_congr_left
      intro b hb
      unfold transBlockOut
      by_cases hshort : b.lines.length < 3
      · rw [if_pos hshort, if_pos hshort]
      · rw [if_neg hshort, if_neg hshort, hagree b hb hshort]
    rw [this]

/-- Witness for C7: in a chunk whose second block has only an id line and
one further line, that block's output slot is its own two lines. -/
theorem translator_malformed_passthrough_witness :
    ((transBlocks "1\n00:00:01,000 --> 00:00:02,000\nhi\n\n7\nlone".data).map
        (transBlockOut (fun t => "X".data ++ t)))[1]? =
      some "7\nlone".data :=
  ((translator_malformed_passthrough (fun t => "X".data ++ t) (fun t => t) []
      "1\n00:00:01,000 --> 00:00:02,000\nhi\n\n7\nlone".data).2.1 1
    ⟨7, ["7".data, "lone".data]⟩ (by decide) (by decide)).trans (by decide)

/- ### Claim C8: the glossary example -/

/-- C8: on the example document with glossary `{Hello ↦ 你好, world ↦ 世界}`
and the tagging DeepSeek provider, the translated text contains both
translations and exactly one glossary match is recorded per term. -/
theorem translator_glossary_example :
    containsSeq "你好".data
        (translateChunkDeepseek "en".data "zh".data
          [("Hello".data, "你好".data), ("world".data, "世界".data)]
          "1\n00:00:01,000 --> 00:00:04,000\nHello world\n".data).translated_content = true ∧
      containsSeq "世界".data
        (translateChunkDeepseek "en".data "zh".data
          [("Hello".data, "你好".data), ("world".data, "世界".data)]
          "1\n00:00:01,000 --> 00:00:04,000\nHello world\n".data).translated_content = true ∧
      (translateChunkDeepseek "en".data "zh".data
          [("Hello".data, "你好".data), ("world".data, "世界".data)]
          "1\n00:00:01,000 --> 00:00:04,000\nHello world\n".data).glossary_matches =
        [⟨"1".data, "Hello".data, "你好".data⟩, ⟨"1".data, "world".data, "世界".data⟩] := by
  refine ⟨?_, ?_, ?_⟩ <;> decide

/- ### Claim C3: rendered documents and the validator's scan -/

theorem consHead_append (c : Char) (A B : List (List Char)) (h : A ≠ []) :
    consHead c (A ++ B) = consHead c A ++ B := by
  cases A with
  | nil => exact absurd rfl h
  | cons a t => rfl

/-- `linesOf` splits around every newline. -/
theorem linesOf_append_nl_gen (x y : List Char) :
    linesOf (x ++ '\n' :: y) = linesOf x ++ linesOf y := by
  induction x with
  | nil => simp [linesOf]
  | cons c x' ih =>
    by_cases hc : c = '\n'
    · subst hc
      show linesOf ('\n' :: (x' ++ '\n' :: y)) = ([] :: linesOf x') ++ linesOf y
      rw [linesOf, if_pos rfl, ih]
      rfl
    · have h1 : linesOf (c :: (x' ++ '\n' :: y)) = consHead c (linesOf (x' ++ '\n' :: y)) := by
        simp only [linesOf, if_neg hc]
      have h2 : linesOf (c :: x') = consHead c (linesOf x') := by
        simp only [linesOf, if_neg hc]
      show linesOf (c :: (x' ++ '\n' :: y)) = linesOf (c :: x') ++ linesOf y
      rw [h1, h2, ih, consHead_append c _ _ (linesOf_ne_nil x')]

theorem linesOf_joinLines (ls : List (List Char)) (hne : ls ≠ [])
    (h : ∀ l ∈ ls, '\n' ∉ l) : linesOf (joinLines ls) = ls := by
  induction ls with
  | nil => exact absurd rfl hne
  | cons l rest ih =>
    cases rest with
    | nil => exact linesOf_no_nl l (h l (List.mem_cons_self l _))
    | cons l2 r2 =>
      show linesOf (l ++ '\n' :: joinLines (l2 :: r2)) = _
      rw [linesOf_append_nl l _ (h l (List.mem_cons_self l _)),
        ih (by simp) (fun a ha => h a (List.mem_cons_of_mem l ha))]

/-- One record of the validator-level rendering: an id, a raw timing line,
and text lines. -/
structure VRec where
  id : Nat
  timing : List Char
  text : List (List Char)
deriving DecidableEq, Repr

def recVLines (r : VRec) : List (List Char) :=
  natDigits r.id :: r.timing :: r.text

/-- The line list of a blank-line-separated document. -/
def interBlank : List (List (List Char)) → List (List Char)
  | [] => []
  | [b] => b
  | b :: b2 :: rest => b ++ [] :: interBlank (b2 :: rest)

/-- A rendered document: blocks joined by blank lines. -/
def renderBlocks (bss : List (List (List Char))) : List Char :=
  joinBlocks (bss.map joinLines)

def renderV (rs : List VRec) : List Char :=
  renderBlocks (rs.map recVLines)

/-- Hypotheses under which the validator characterization is faithful:
line-break-free timing, and at least one non-blank, line-break-free text
line. -/
def VRecOk (r : VRec) : Prop :=
  NoBreak r.timing ∧ r.text ≠ [] ∧ ∀ t ∈ r.text, pyStrip t ≠ [] ∧ NoBreak t

instance (l : List Char) : Decidable (NoBreak l) := by
  unfold NoBreak
  infer_instance

instance (r : VRec) : Decidable (VRecOk r) := by
  unfold VRecOk
  infer_instance

theorem interBlank_ne_nil (bss : List (List (List Char))) (hne : bss ≠ [])
    (hb : ∀ b ∈ bss, b ≠ []) : interBlank bss ≠ [] := by
  cases bss with
  | nil => exact absurd rfl hne
  | cons b rest =>
    cases rest with
    | nil => exact hb b (List.mem_cons_self b _)
    | cons b2 r2 => exact append_ne_nil_left (hb b (List.mem_cons_self b _))

theorem linesOf_renderBlocks (bss : List (List (List Char))) (hne : bss ≠ [])
    (hb : ∀ b ∈ bss, b ≠ []) (h : ∀ b ∈ bss, ∀ l ∈ b, '\n' ∉ l) :
    linesOf (renderBlocks bss) = interBlank bss := by
  induction bss with
  | nil => exact absurd rfl hne
  | cons b rest ih =>
    cases rest with
    | nil =>
      show linesOf (joinLines b) = b
      exact linesOf_joinLines b (hb b (List.mem_cons_self b _)) (h b (List.mem_cons_self b _))
    | cons b2 r2 =>
      show linesOf (joinLines b ++ '\n' :: ('\n' :: joinBlocks ((b2 :: r2).map joinLines))) = _
      rw [linesOf_append_nl_gen, linesOf_joinLines b (hb b (List.mem_cons_self b _))
        (h b (List.mem_cons_self b _))]
      show _ = b ++ [] :: interBlank (b2 :: r2)
      rw [show linesOf ('\n' :: joinBlocks ((b2 :: r2).map joinLines)) =
        [] :: linesOf (renderBlocks (b2 :: r2)) from by rw [linesOf, if_pos rfl]; rfl]
      rw [ih (by simp) (fun a ha => hb a (List.mem_cons_of_mem b ha))
        (fun a ha => h a (List.mem_cons_of_mem b ha))]

theorem interBlank_getLast? :
    ∀ (bss : List (List (List Char))), bss ≠ [] → (∀ b ∈ bss, b ≠ []) →
      ∃ b, bss.getLast? = some b ∧ (interBlank bss).getLast? = b.getLast? := by
  intro bss
  induction bss with
  | nil => intro h _; exact absurd rfl h
  | cons b rest ih =>
    intro _ hall
    cases rest with
    | nil => exact ⟨b, rfl, rfl⟩
    | cons b2 r2 =>
      obtain ⟨x, hx1, hx2⟩ := ih (by simp) (fun a ha => hall a (List.mem_cons_of_mem b ha))
      refine ⟨x, by rwa [List.getLast?_cons_cons], ?_⟩
      show (b ++ [] :: interBlank (b2 :: r2)).getLast? = _
      rw [List.getLast?_append]
      have hib : interBlank (b2 :: r2) ≠ [] :=
        interBlank_ne_nil _ (by simp) (fun a ha => hall a (List.mem_cons_of_mem b ha))
      cases hj : interBlank (b2 :: r2) with
      | nil => exact absurd hj hib
      | cons c t =>
        rw [List.getLast?_cons_cons, ← hj, hx2]
        cases hx : x.getLast? with
        | none =>
          exfalso
          have hxne : x ≠ [] := hall x (List.mem_cons_of_mem b (getLast?_mem hx1))
          rw [List.getLast?_eq_getLast x hxne] at hx
          exact absurd hx (by simp)
        | some c2 => rfl

theorem pySplitlines_eq_linesOf (x : List Char) (hne : x ≠ [])
    (h : (linesOf x).getLast? ≠ some []) : pySplitlines x = linesOf x := by
  unfold pySplitlines
  rw [if_neg hne, if_neg h]

theorem pyStrip_ne_nil_of_head (x : List Char) (c : Char) (hc : x.head? = some c)
    (hnws : isWS c = false) : pyStrip x ≠ [] := by
  intro h
  unfold pyStrip at h
  rw [List.reverse_eq_nil_iff, List.dropWhile_eq_nil_iff] at h
  have hdw : x.dropWhile isWS = x := by
    apply dropWhile_eq_self_of_head
    intro d hd
    rw [hc] at hd
    injection hd with hd
    rwa [← hd]
  have hcx : c ∈ (x.dropWhile isWS).reverse := by
    rw [List.mem_reverse, hdw]
    exact head?_mem hc
  simp [h c hcx] at hnws

theorem takeWhile_all {α : Type} (p : α → Bool) (l : List α) (h : ∀ x ∈ l, p x = true) :
    l.takeWhile p = l ∧ l.dropWhile p = [] := by
  have := takeWhile_append_of p l [] h (by intro a ha; simp at ha)
  simpa using this

theorem valGo_nil (f idx : Nat) : valGo f idx [] = [] := by
  cases f <;> rfl

/-- The timing errors the validator reports on a rendered document, with
their 1-based line numbers: record `i`'s timing line is the second line of
its block. -/
def expectedVErrs (idx : Nat) : List VRec → List VErr
  | [] => []
  | r :: rest =>
    (if timingOk r.timing then [] else [⟨idx + 2, VErrKind.badTiming⟩]) ++
      expectedVErrs (idx + 2 + r.text.length + 1) rest

theorem interBlank_head? (b : List (List Char)) (bs : List (List (List Char)))
    (hb : b ≠ []) : (interBlank (b :: bs)).head? = b.head? := by
  cases bs with
  | nil => rfl
  | cons b2 r2 => exact head?_append_left hb

theorem valText_cons (idx : Nat) (texts next : List (List Char))
    (ht : ∀ x ∈ texts, pyStrip x ≠ []) (htne : texts ≠ [])
    (hnext : ∀ h, next.head? = some h → pyStrip h ≠ []) :
    valText idx (texts ++ [] :: next) = ([], idx + texts.length + 1, next) := by
  unfold valText
  have h1 := takeWhile_append_of (fun x => decide (pyStrip x ≠ [])) texts ([] :: next)
    (fun x hx => by simp [ht x hx])
    (fun h hh => by
      simp at hh
      simp [hh, pyStrip_nil])
  have h2 := takeWhile_append_of (fun x => decide (pyStrip x = [])) [[]] next
    (fun x hx => by
      simp at hx
      simp [hx, pyStrip_nil])
    (fun h hh => by simp [hnext h hh])
  rw [h1.1, h1.2]
  rw [show ([] :: next : List (List Char)) = [[]] ++ next from rfl, h2.1, h2.2]
  simp [htne]

theorem valText_last (idx : Nat) (texts : List (List Char))
    (ht : ∀ x ∈ texts, pyStrip x ≠ []) (htne : texts ≠ []) :
    valText idx texts = ([], idx + texts.length, []) := by
  unfold valText
  have h1 := takeWhile_all (fun x => decide (pyStrip x ≠ [])) texts
    (fun x hx => by simp [ht x hx])
  rw [h1.1, h1.2]
  simp [htne]

theorem valGo_record_cons (f idx idn : Nat) (timing : List Char)
    (texts next : List (List Char)) (ht : ∀ x ∈ texts, pyStrip x ≠ [])
    (htne : texts ≠ []) (hnext : ∀ h, next.head? = some h → pyStrip h ≠ []) :
    valGo (f + 1) idx (natDigits idn :: timing :: (texts ++ [] :: next)) =
      (if timingOk timing then [] else [⟨idx + 2, VErrKind.badTiming⟩]) ++
        valGo f (idx + 2 + texts.length + 1) next := by
  have hid := tok_natDigits idn
  cases texts with
  | nil => exact absurd rfl htne
  | cons t1 tr =>
    show (if pyStrip (natDigits idn) = [] then _
      else if isPyInt (pyStrip (natDigits idn)) = true then
        (if timingOk timing then [] else [⟨idx + 2, VErrKind.badTiming⟩]) ++
          (valText (idx + 2) ((t1 :: tr) ++ [] :: next)).1 ++
          valGo f (valText (idx + 2) ((t1 :: tr) ++ [] :: next)).2.1
            (valText (idx + 2) ((t1 :: tr) ++ [] :: next)).2.2
      else _) = _
    rw [hid.2.1, if_neg hid.1, if_pos (isPyInt_natDigits idn),
      valText_cons (idx + 2) (t1 :: tr) next ht htne hnext]
    simp

theorem valGo_record_last (f idx idn : Nat) (timing : List Char)
    (texts : List (List Char)) (ht : ∀ x ∈ texts, pyStrip x ≠ []) (htne : texts ≠ []) :
    valGo (f + 1) idx (natDigits idn :: timing :: texts) =
      (if timingOk timing then [] else [⟨idx + 2, VErrKind.badTiming⟩]) := by
  have hid := tok_natDigits idn
  cases texts with
  | nil => exact absurd rfl htne
  | cons t1 tr =>
    show (if pyStrip (natDigits idn) = [] then _
      else if isPyInt (pyStrip (natDigits idn)) = true then
        (if timingOk timing then [] else [⟨idx + 2, VErrKind.badTiming⟩]) ++
          (valText (idx + 2) (t1 :: tr)).1 ++
          valGo f (valText (idx + 2) (t1 :: tr)).2.1 (valText (idx + 2) (t1 :: tr)).2.2
      else _) = _
    rw [hid.2.1, if_neg hid.1, if_pos (isPyInt_natDigits idn),
      valText_last (idx + 2) (t1 :: tr) ht htne]
    simp [valGo_nil]

theorem valGo_render :
    ∀ (rs : List VRec) (fuel idx : Nat), (∀ r ∈ rs, VRecOk r) →
      (interBlank (rs.map recVLines)).length < fuel →
      valGo fuel idx (interBlank (rs.map recVLines)) = expectedVErrs idx rs := by
  intro rs
  induction rs with
  | nil =>
    intro fuel idx _ _
    exact valGo_nil fuel idx
  | cons r rest ih =>
    intro fuel idx hok hf
    obtain ⟨htno, htxne, htx⟩ := hok r (List.mem_cons_self r rest)
    cases fuel with
    | zero => omega
    | succ f =>
      cases rest with
      | nil =>
        show valGo (f + 1) idx (recVLines r) = _
        rw [recVLines, valGo_record_last f idx r.id r.timing r.text
          (fun x hx => (htx x hx).1) htxne]
        show _ = _ ++ expectedVErrs _ []
        rw [show expectedVErrs (idx + 2 + r.text.length + 1) [] = [] from rfl, List.append_nil]
      | cons r2 rest2 =>
        have hlines : interBlank ((r :: r2 :: rest2).map recVLines) =
            natDigits r.id :: r.timing ::
              (r.text ++ [] :: interBlank ((r2 :: rest2).map recVLines)) := by
          show recVLines r ++ [] :: interBlank ((r2 :: rest2).map recVLines) = _
          rw [recVLines]
          simp
        rw [hlines] at hf ⊢
        rw [valGo_record_cons f idx r.id r.timing r.text
          (interBlank ((r2 :: rest2).map recVLines))
          (fun x hx => (htx x hx).1) htxne ?hnext]
        · show _ = _ ++ expectedVErrs (idx + 2 + r.text.length + 1) (r2 :: rest2)
          congr 1
          apply ih _ _ (fun a ha => hok a (List.mem_cons_of_mem r ha))
          simp only [List.map_cons, List.length_cons, List.length_append] at hf ⊢
          omega
        · case hnext =>
          intro h hh
          rw [show (r2 :: rest2).map recVLines = recVLines r2 :: rest2.map recVLines from rfl,
            interBlank_head? _ _ (by rw [recVLines]; simp)] at hh
          rw [show (recVLines r2).head? = some (natDigits r2.id) from rfl] at hh
          injection hh with hh
          rw [← hh, (tok_natDigits r2.id).2.1]
          exact (tok_natDigits r2.id).1

theorem nl_not_mem_natDigits (n : Nat) : '\n' ∉ natDigits n := by
  intro h
  exact absurd (natDigits_all_digits n '\n' h) (by decide)

theorem expectedVErrs_nil_iff :
    ∀ (rs : List VRec) (idx : Nat),
      expectedVErrs idx rs = [] ↔ ∀ r ∈ rs, timingOk r.timing = true := by
  intro rs
  induction rs with
  | nil =>
    intro idx
    simp [expectedVErrs]
  | cons r rest ih =>
    intro idx
    rw [show expectedVErrs idx (r :: rest) =
      (if timingOk r.timing then [] else [⟨idx + 2, VErrKind.badTiming⟩]) ++
        expectedVErrs (idx + 2 + r.text.length + 1) rest from rfl]
    cases h : timingOk r.timing with
    | true => simp [h, ih]
    | false => simp [h]

/-- C3 (amended): on a rendered document of well-formed records, the
validator's timing check is `re.match`'s *prefix* test `timingOk`, not the
exact full-line pattern: the reported errors are exactly one `badTiming`
entry at the timing line of each record whose timing line fails the prefix
test, and the document is declared valid iff every record's timing line
passes that prefix test — so a timing line carrying extra content after
the pattern is accepted, contradicting the claim's exact-match reading. -/
theorem validator_timing_prefix_match (rs : List VRec) (hne : rs ≠ [])
    (hok : ∀ r ∈ rs, VRecOk r) :
    (validateSrt (renderV rs)).errors = expectedVErrs 0 rs ∧
      ((validateSrt (renderV rs)).valid = true ↔
        ∀ r ∈ rs, timingOk r.timing = true) := by
  have hbne : ∀ b ∈ rs.map recVLines, b ≠ [] := by
    intro b hb
    rw [List.mem_map] at hb
    obtain ⟨r, _, rfl⟩ := hb
    simp [recVLines]
  have hnobr : ∀ b ∈ rs.map recVLines, ∀ l ∈ b, '\n' ∉ l := by
    intro b hb l hl
    rw [List.mem_map] at hb
    obtain ⟨r, hr, rfl⟩ := hb
    obtain ⟨hTim, hTne, hTx⟩ := hok r hr
    unfold recVLines at hl
    rcases List.mem_cons.mp hl with rfl | hl2
    · exact nl_not_mem_natDigits r.id
    rcases List.mem_cons.mp hl2 with rfl | hl3
    · exact hTim.1
    · exact (hTx l hl3).2.1
  have hmapne : rs.map recVLines ≠ [] := by
    cases rs with
    | nil => exact absurd rfl hne
    | cons a t => simp
  have hlines : linesOf (renderV rs) = interBlank (rs.map recVLines) :=
    linesOf_renderBlocks _ hmapne hbne hnobr
  have hlast : (linesOf (renderV rs)).getLast? ≠ some [] := by
    rw [hlines]
    obtain ⟨b, hb1, hb2⟩ := interBlank_getLast? _ hmapne hbne
    rw [hb2]
    have hbmem : b ∈ rs.map recVLines := getLast?_mem hb1
    rw [List.mem_map] at hbmem
    obtain ⟨r, hr, rfl⟩ := hbmem
    obtain ⟨_, hTne, hTx⟩ := hok r hr
    unfold recVLines
    cases htext : r.text with
    | nil => exact absurd htext hTne
    | cons t ts =>
      rw [List.getLast?_cons_cons, List.getLast?_cons_cons]
      intro hcontra
      have hmem : ([] : List Char) ∈ r.text := by
        rw [htext]
        exact getLast?_mem hcontra
      exact (hTx [] hmem).1 rfl
  have hhead : ∃ c, (renderV rs).head? = some c ∧ isDig c = true := by
    cases rs with
    | nil => exact absurd rfl hne
    | cons r rest =>
      have hjl : joinLines (recVLines r) ≠ [] := by
        show natDigits r.id ++ '\n' :: joinLines (r.timing :: r.text) ≠ []
        exact append_ne_nil_left (natDigits_ne_nil r.id)
      have h1 : (renderV (r :: rest)).head? = (joinLines (recVLines r)).head? := by
        show (joinBlocks
          (joinLines (recVLines r) :: (rest.map recVLines).map joinLines)).head? = _
        exact joinBlocks_head? _ _ hjl
      have h2 : (joinLines (recVLines r)).head? = (natDigits r.id).head? := by
        show (joinLines (natDigits r.id :: r.timing :: r.text)).head? = _
        exact joinLines_head? _ _ (natDigits_ne_nil r.id)
      cases hnd : natDigits r.id with
      | nil => exact absurd hnd (natDigits_ne_nil r.id)
      | cons c t =>
        refine ⟨c, ?_, ?_⟩
        · rw [h1, h2, hnd]
          rfl
        · exact natDigits_all_digits r.id c (by rw [hnd]; exact List.mem_cons_self c t)
  obtain ⟨c, hc, hcd⟩ := hhead
  have hrne : renderV rs ≠ [] := by
    intro h
    rw [h] at hc
    simp at hc
  have hstrip : pyStrip (renderV rs) ≠ [] :=
    pyStrip_ne_nil_of_head _ c hc (isDig_not_ws hcd)
  have hps : pySplitlines (renderV rs) = interBlank (rs.map recVLines) := by
    rw [pySplitlines_eq_linesOf _ hrne hlast, hlines]
  have hval := valGo_render rs ((interBlank (rs.map recVLines)).length + 1) 0 hok
    (Nat.lt_succ_self _)
  have hfinal : validateSrt (renderV rs) =
      ⟨decide (expectedVErrs 0 rs = []), expectedVErrs 0 rs⟩ := by
    unfold validateSrt
    rw [if_neg hstrip]
    simp only [hps, hval]
  rw [hfinal]
  refine ⟨rfl, ?_⟩
  show decide (expectedVErrs 0 rs = []) = true ↔ _
  simp only [decide_eq_true_eq]
  exact expectedVErrs_nil_iff rs 0

set_option maxRecDepth 4000 in
/-- C3 counterexample: the timing line
`00:00:01,000 --> 00:00:04,000 EXTRA` carries extra content beyond the
exact pattern `HH:MM:SS,mmm --> HH:MM:SS,mmm`, yet `validate_srt` reports
no error at all on a document using it (`re.match` only tests a prefix),
refuting the claimed if-and-only-if with the exact pattern. -/
theorem validator_timing_exact_counterexample :
    validateSrt ("1\n00:00:01,000 --> 00:00:04,000 EXTRA\nHi".data) = ⟨true, []⟩ ∧
      exactTiming ("00:00:01,000 --> 00:00:04,000 EXTRA".data) = false := by
  constructor
  · decide
  · decide

set_option maxRecDepth 4000 in
/-- Witness for C3's amended theorem on a two-record document whose first
timing line has trailing content (accepted) and whose second is not a
timing line at all (one `badTiming` error at line 6). -/
theorem validator_timing_prefix_match_witness :
    ([⟨1, "00:00:01,000 --> 00:00:04,000 EXTRA".data, ["Hi".data]⟩,
        ⟨2, "bad timing".data, ["Yo".data]⟩] : List VRec) ≠ [] ∧
      (∀ r ∈ ([⟨1, "00:00:01,000 --> 00:00:04,000 EXTRA".data, ["Hi".data]⟩,
        ⟨2, "bad timing".data, ["Yo".data]⟩] : List VRec), VRecOk r) ∧
      ((validateSrt (renderV [⟨1, "00:00:01,000 --> 00:00:04,000 EXTRA".data, ["Hi".data]⟩,
          ⟨2, "bad timing".data, ["Yo".data]⟩])).errors =
        expectedVErrs 0 [⟨1, "00:00:01,000 --> 00:00:04,000 EXTRA".data, ["Hi".data]⟩,
          ⟨2, "bad timing".data, ["Yo".data]⟩] ∧
       ((validateSrt (renderV [⟨1, "00:00:01,000 --> 00:00:04,000 EXTRA".data, ["Hi".data]⟩,
          ⟨2, "bad timing".data, ["Yo".data]⟩])).valid = true ↔
        ∀ r ∈ ([⟨1, "00:00:01,000 --> 00:00:04,000 EXTRA".data, ["Hi".data]⟩,
          ⟨2, "bad timing".data, ["Yo".data]⟩] : List VRec), timingOk r.timing = true)) :=
  ⟨by decide, by decide,
    validator_timing_prefix_match _ (by decide) (by decide)⟩

/- ### The workflow past the splitting stage (supporting analysis for
C2, whose scenario the shipped program never reaches — every validated
run dies in the split-failure branch, `process_split_error`) -/

/-- With the splitting stage repaired and at least one chunk translated
successfully, the run terminates with status `completed` and a
`subtitle_count` counting only the succeeded chunks' records, while the
returned run record carries `error = none` and `details = none`: a
failed chunk's failure is only logged inside the result-collection loop
(workflow.py line 151) and is not present in the returned record. -/
theorem process_partial_failure (content : List Char) (k : Nat)
    (tres : List TransAgentResult)
    (hval : (validateSrt content).valid = true)
    (hsome : ((splitSrt content k).chunks.zip tres).filter (fun p => !p.2.hasError) ≠ []) :
    (processRunIntended content k tres true true).status = PStatus.completed ∧
      (processRunIntended content k tres true true).error = none ∧
      (processRunIntended content k tres true true).details = none ∧
      (processRunIntended content k tres true true).subtitle_count =
        some ((((splitSrt content k).chunks.zip tres).filter (fun p => !p.2.hasError)).map
          (fun p => (reasmParse p.2.translated_content).length)).sum := by
  have hmapne : (((splitSrt content k).chunks.zip tres).filter
      (fun p => !p.2.hasError)).map
      (fun p => (⟨(p.1.id : Int), p.2.translated_content⟩ : RChunk)) ≠ [] := by
    intro h
    rw [List.map_eq_nil_iff] at h
    exact hsome h
  have h1 : processRunIntended content k tres true true =
      ⟨.completed, none, none,
        some (reassembleSrt ((((splitSrt content k).chunks.zip tres).filter
          (fun p => !p.2.hasError)).map
          (fun p => (⟨(p.1.id : Int), p.2.translated_content⟩ : RChunk))) true).subtitle_count,
        some (reassembleSrt ((((splitSrt content k).chunks.zip tres).filter
          (fun p => !p.2.hasError)).map
          (fun p => (⟨(p.1.id : Int), p.2.translated_content⟩ : RChunk))) true).content.length⟩ := by
    unfold processRunIntended
    simp only [hval, Bool.not_true, Bool.false_eq_true, if_false, if_neg hmapne]
  rw [h1]
  refine ⟨rfl, rfl, rfl, ?_⟩
  show some (reassembleSrt _ true).subtitle_count = _
  rw [reassembleSrt_count, List.map_map]
  rfl

set_option maxRecDepth 8000 in
/-- Three single-record chunks with exactly the second chunk's
translation failing, under the repaired splitting stage: the run returns
status `completed` with `subtitle_count = 2` (the two succeeded chunks'
records) — and `error` and `details` are both absent from the returned
record, so even then the failed chunk's failure would not remain
available in the run's diagnostic record. -/
theorem process_partial_failure_counterexample :
    processRunIntended ("1\n00:00:01,000 --> 00:00:02,000\na\n\n" ++
        "2\n00:00:03,000 --> 00:00:04,000\nb\n\n" ++
        "3\n00:00:05,000 --> 00:00:06,000\nc").data 1
      [⟨"1\n00:00:01,000 --> 00:00:02,000\na".data, false⟩,
        ⟨[], true⟩,
        ⟨"3\n00:00:05,000 --> 00:00:06,000\nc".data, false⟩] true true =
      ⟨PStatus.completed, none, none, some 2,
        some ("1\n00:00:01,000 --> 00:00:02,000\na\n\n" ++
          "2\n00:00:05,000 --> 00:00:06,000\nc").data.length⟩ := by
  decide

set_option maxRecDepth 8000 in
/-- The hypotheses of `process_partial_failure` discharged at the same
three-chunk run. -/
theorem process_partial_failure_witness :
    (validateSrt ("1\n00:00:01,000 --> 00:00:02,000\na\n\n" ++
        "2\n00:00:03,000 --> 00:00:04,000\nb\n\n" ++
        "3\n00:00:05,000 --> 00:00:06,000\nc").data).valid = true ∧
      ((splitSrt ("1\n00:00:01,000 --> 00:00:02,000\na\n\n" ++
          "2\n00:00:03,000 --> 00:00:04,000\nb\n\n" ++
          "3\n00:00:05,000 --> 00:00:06,000\nc").data 1).chunks.zip
        ([⟨"1\n00:00:01,000 --> 00:00:02,000\na".data, false⟩,
          ⟨[], true⟩,
          ⟨"3\n00:00:05,000 --> 00:00:06,000\nc".data, false⟩] :
          List TransAgentResult)).filter
        (fun p => !p.2.hasError) ≠ [] ∧
      ((processRunIntended ("1\n00:00:01,000 --> 00:00:02,000\na\n\n" ++
          "2\n00:00:03,000 --> 00:00:04,000\nb\n\n" ++
          "3\n00:00:05,000 --> 00:00:06,000\nc").data 1
        [⟨"1\n00:00:01,000 --> 00:00:02,000\na".data, false⟩,
          ⟨[], true⟩,
          ⟨"3\n00:00:05,000 --> 00:00:06,000\nc".data, false⟩] true true).status =
        PStatus.completed ∧
      (processRunIntended ("1\n00:00:01,000 --> 00:00:02,000\na\n\n" ++
          "2\n00:00:03,000 --> 00:00:04,000\nb\n\n" ++
          "3\n00:00:05,000 --> 00:00:06,000\nc").data 1
        [⟨"1\n00:00:01,000 --> 00:00:02,000\na".data, false⟩,
          ⟨[], true⟩,
          ⟨"3\n00:00:05,000 --> 00:00:06,000\nc".data, false⟩] true true).error = none ∧
      (processRunIntended ("1\n00:00:01,000 --> 00:00:02,000\na\n\n" ++
          "2\n00:00:03,000 --> 00:00:04,000\nb\n\n" ++
          "3\n00:00:05,000 --> 00:00:06,000\nc").data 1
        [⟨"1\n00:00:01,000 --> 00:00:02,000\na".data, false⟩,
          ⟨[], true⟩,
          ⟨"3\n00:00:05,000 --> 00:00:06,000\nc".data, false⟩] true true).details = none ∧
      (processRunIntended ("1\n00:00:01,000 --> 00:00:02,000\na\n\n" ++
          "2\n00:00:03,000 --> 00:00:04,000\nb\n\n" ++
          "3\n00:00:05,000 --> 00:00:06,000\nc").data 1
        [⟨"1\n00:00:01,000 --> 00:00:02,000\na".data, false⟩,
          ⟨[], true⟩,
          ⟨"3\n00:00:05,000 --> 00:00:06,000\nc".data, false⟩] true true).subtitle_count =
        some ((((splitSrt ("1\n00:00:01,000 --> 00:00:02,000\na\n\n" ++
            "2\n00:00:03,000 --> 00:00:04,000\nb\n\n" ++
            "3\n00:00:05,000 --> 00:00:06,000\nc").data 1).chunks.zip
          ([⟨"1\n00:00:01,000 --> 00:00:02,000\na".data, false⟩,
            ⟨[], true⟩,
            ⟨"3\n00:00:05,000 --> 00:00:06,000\nc".data, false⟩] :
            List TransAgentResult)).filter
          (fun p => !p.2.hasError)).map
          (fun p => (reasmParse p.2.translated_content).length)).sum) :=
  ⟨by decide, by decide,
    process_partial_failure _ 1 _ (by decide) (by decide)⟩

/- ### The split/translate/reassemble round trip (supporting analysis
for C1: the shipped `split_srt` raises on every input — see C4 and
`splitAgentError` — so the round-trip pipeline of the claim never
returns; this development analyses the pipeline with the splitting stage
repaired to the evidently intended pattern, where the law still fails on
validator-accepted documents and holds only on canonical ones) -/

/- ### Stage A: the chunk grouping mirrored on records -/

def toVChunksGo (k : Nat) : Nat → List VRec → List (List VRec)
  | 0, _ => []
  | _ + 1, [] => []
  | fuel + 1, b :: rest => (b :: rest.take (k - 1)) :: toVChunksGo k fuel (rest.drop (k - 1))

def toVChunks (k : Nat) (rs : List VRec) : List (List VRec) :=
  toVChunksGo k (rs.length + 1) rs

theorem toVChunksGo_flatten (k : Nat) :
    ∀ (fuel : Nat) (rs : List VRec), rs.length < fuel →
      (toVChunksGo k fuel rs).flatten = rs := by
  intro fuel
  induction fuel with
  | zero => intro rs h; omega
  | succ f ih =>
    intro rs h
    cases rs with
    | nil => rfl
    | cons b rest =>
      show (b :: rest.take (k - 1)) ++ (toVChunksGo k f (rest.drop (k - 1))).flatten = _
      rw [ih _ (by rw [List.length_drop]; simp at h; omega)]
      rw [List.cons_append, List.take_append_drop]

theorem toVChunksGo_ne_nil (k : Nat) :
    ∀ (fuel : Nat) (rs : List VRec), ∀ g ∈ toVChunksGo k fuel rs, g ≠ [] := by
  intro fuel
  induction fuel with
  | zero => intro rs g hg; simp [toVChunksGo] at hg
  | succ f ih =>
    intro rs g hg
    cases rs with
    | nil => simp [toVChunksGo] at hg
    | cons b rest =>
      rcases List.mem_cons.mp hg with rfl | hg2
      · simp
      · exact ih _ g hg2

theorem toChunksGo_map (k : Nat) (F : VRec → SBlock) :
    ∀ (fuel : Nat) (rs : List VRec),
      toChunksGo k fuel (rs.map F) = (toVChunksGo k fuel rs).map (List.map F) := by
  intro fuel
  induction fuel with
  | zero => intro rs; rfl
  | succ f ih =>
    intro rs
    cases rs with
    | nil => rfl
    | cons b rest =>
      show (F b :: (rest.map F).take (k - 1)) ::
          toChunksGo k f ((rest.map F).drop (k - 1)) = _
      rw [← List.map_take, ← List.map_drop, ih]
      rfl

/- ### Stage B: `int(str(n)) = n` -/

theorem duVal_append (acc : Nat) (a b : List Char) :
    duVal acc (a ++ b) = duVal (duVal acc a) b := by
  induction a generalizing acc with
  | nil => rfl
  | cons c a' ih =>
    show duVal acc (c :: (a' ++ b)) = _
    by_cases h : c = '_' <;> simp [duVal, h, ih]

theorem duVal_digitChar (acc d : Nat) (hd : d < 10) :
    duVal acc [digitChar d] = acc * 10 + d := by
  have h1 : digitChar d ≠ '_' := by interval_cases d <;> decide
  have h2 : (digitChar d).toNat - '0'.toNat = d := by interval_cases d <;> decide
  show (if digitChar d = '_' then duVal acc []
    else duVal (acc * 10 + ((digitChar d).toNat - '0'.toNat)) []) = acc * 10 + d
  rw [if_neg h1, h2]
  rfl

theorem duVal_natDigitsGo :
    ∀ (fuel n acc : Nat), n < fuel →
      duVal acc (natDigitsGo fuel n) = acc * 10 ^ (natDigitsGo fuel n).length + n := by
  intro fuel
  induction fuel with
  | zero => intro n acc h; omega
  | succ f ih =>
    intro n acc h
    show duVal acc (if n < 10 then [digitChar n]
      else natDigitsGo f (n / 10) ++ [digitChar (n % 10)]) = acc * 10 ^
        (if n < 10 then [digitChar n]
          else natDigitsGo f (n / 10) ++ [digitChar (n % 10)]).length + n
    by_cases h10 : n < 10
    · rw [if_pos h10, duVal_digitChar acc n h10]
      simp
    · rw [if_neg h10]
      have hdiv : n / 10 < f := by
        have h1 : n / 10 < n := Nat.div_lt_self (by omega) (by omega)
        omega
      rw [duVal_append, ih (n / 10) acc hdiv,
        duVal_digitChar _ (n % 10) (Nat.mod_lt n (by omega))]
      rw [List.length_append, List.length_singleton, pow_succ]
      ring_nf
      omega

theorem duVal_natDigits (n : Nat) : duVal 0 (natDigits n) = n := by
  have := duVal_natDigitsGo (n + 1) n 0 (by omega)
  simpa [natDigits] using this

theorem pyIntVal_natDigits (n : Nat) : pyIntVal (natDigits n) = (n : Int) := by
  cases hnd : natDigits n with
  | nil => exact absurd hnd (natDigits_ne_nil n)
  | cons c t =>
    have hc : isDig c = true :=
      natDigits_all_digits n c (by rw [hnd]; exact List.mem_cons_self c t)
    have hp : c ≠ '+' := by intro h; rw [h] at hc; exact absurd hc (by decide)
    have hm : c ≠ '-' := by intro h; rw [h] at hc; exact absurd hc (by decide)
    show (if c = '+' then (duVal 0 t : Int)
      else if c = '-' then -(duVal 0 t : Int) else (duVal 0 (c :: t) : Int)) = (n : Int)
    rw [if_neg hp, if_neg hm, ← hnd, duVal_natDigits]

/- ### Stage C: the regex engine on a rendered document -/

theorem takeWhile_eq_nil_of_head {p : Char → Bool} (y : List Char)
    (h : ∀ c, y.head? = some c → p c = false) : y.takeWhile p = [] := by
  cases y with
  | nil => rfl
  | cons c t => simp [List.takeWhile_cons, h c rfl]

theorem nlSplit_nl (r : List Char) : nlSplit ('\n' :: r) = some r := rfl

theorem nlSplit_nil : nlSplit [] = none := rfl

theorem nlSplit_not_nl {c : Char} (t : List Char) (h : c ≠ '\n') :
    nlSplit (c :: t) = none := by
  unfold nlSplit
  split
  · next r heq =>
    injection heq with h1 _
    exact absurd h1 h
  · rfl

theorem nlSplit_none_of_head (y : List Char)
    (h : ∀ c, y.head? = some c → isWS c = false) : nlSplit y = none := by
  cases y with
  | nil => rfl
  | cons c t =>
    refine nlSplit_not_nl t fun he => ?_
    have := h c rfl
    rw [he] at this
    exact absurd this (by decide)

theorem wsStarNl_nonws (y : List Char)
    (h : ∀ c, y.head? = some c → isWS c = false) : wsStarNl y = [] := by
  unfold wsStarNl
  rw [takeWhile_eq_nil_of_head y h]
  show List.filterMap _ [0] = []
  simp [List.filterMap_cons, List.drop_zero, nlSplit_none_of_head y h]

theorem wsStarNl_nl_nonws (y : List Char)
    (h : ∀ c, y.head? = some c → isWS c = false) :
    wsStarNl ('\n' :: y) = [(['\n'], y)] := by
  unfold wsStarNl
  have h1 : y.takeWhile isWS = [] := takeWhile_eq_nil_of_head y h
  have ht : ('\n' :: y).takeWhile isWS = ['\n'] := by
    rw [List.takeWhile_cons, if_pos (by decide), h1]
  rw [ht]
  show List.filterMap _ [1, 0] = _
  simp [List.filterMap_cons, nlSplit_none_of_head y h, nlSplit_nl]

theorem starSplits_nonws (y : List Char)
    (h : ∀ c, y.head? = some c → isWS c = false) :
    starSplits isWS y = [([], y)] := by
  unfold starSplits
  rw [takeWhile_eq_nil_of_head y h]
  show List.map _ [0] = _
  simp

theorem plusSplits_nil_of_head (p : Char → Bool) (y : List Char)
    (h : ∀ c, y.head? = some c → p c = false) : plusSplits p y = [] := by
  unfold plusSplits
  rw [takeWhile_eq_nil_of_head y h]
  rfl

theorem plusSplits_decomp (p : Char → Bool) (a y : List Char) (hane : a ≠ [])
    (ha : ∀ c ∈ a, p c = true) (hy : ∀ c, y.head? = some c → p c = false) :
    ∃ tl, plusSplits p (a ++ y) = (a, y) :: tl := by
  unfold plusSplits
  rw [(takeWhile_append_of p a y ha hy).1]
  cases hL : a.length with
  | zero => exact absurd (List.length_eq_zero.mp hL) hane
  | succ m =>
    refine ⟨(descList m).map fun k => ((a ++ y).take k, (a ++ y).drop k), ?_⟩
    show List.map _ ((m + 1) :: descList m) = _
    rw [List.map_cons]
    have e1 : (a ++ y).take (m + 1) = a := by
      rw [show m + 1 = a.length from hL.symm, List.take_left]
    have e2 : (a ++ y).drop (m + 1) = y := by
      rw [show m + 1 = a.length from hL.symm, List.drop_left]
    rw [e1, e2]

theorem plusSplits_decomp2 (p : Char → Bool) (a y : List Char) (hane : a ≠ [])
    (ha : ∀ c ∈ a, p c = true) (hnl : p '\n' = true)
    (hy : ∀ c, y.head? = some c → p c = false) :
    ∃ tl, plusSplits p (a ++ '\n' :: y) = (a ++ ['\n'], y) :: (a, '\n' :: y) :: tl := by
  unfold plusSplits
  have hx : (a ++ '\n' :: y) = (a ++ ['\n']) ++ y := by simp
  have hall : ∀ c ∈ a ++ ['\n'], p c = true := by
    intro c hc
    rcases List.mem_append.mp hc with hc | hc
    · exact ha c hc
    · simp at hc
      rw [hc]
      exact hnl
  have ht : (a ++ '\n' :: y).takeWhile p = a ++ ['\n'] := by
    rw [hx, (takeWhile_append_of p (a ++ ['\n']) y hall hy).1]
  rw [ht]
  have hL2 : (a ++ ['\n']).length = a.length + 1 := by simp
  cases hL : a.length with
  | zero => exact absurd (List.length_eq_zero.mp hL) hane
  | succ m =>
    refine ⟨(descList m).map fun k => ((a ++ '\n' :: y).take k, (a ++ '\n' :: y).drop k), ?_⟩
    rw [hL2, hL]
    show List.map _ ((m + 2) :: (m + 1) :: descList m) = _
    rw [List.map_cons, List.map_cons]
    have e1 : (a ++ '\n' :: y).take (m + 2) = a ++ ['\n'] := by
      rw [hx, show m + 2 = (a ++ ['\n']).length from by rw [hL2, hL], List.take_left]
    have e2 : (a ++ '\n' :: y).drop (m + 2) = y := by
      rw [hx, show m + 2 = (a ++ ['\n']).length from by rw [hL2, hL], List.drop_left]
    have e3 : (a ++ '\n' :: y).take (m + 1) = a := by
      rw [show m + 1 = a.length from hL.symm, List.take_left]
    have e4 : (a ++ '\n' :: y).drop (m + 1) = '\n' :: y := by
      rw [show m + 1 = a.length from hL.symm, List.drop_left]
    rw [e1, e2, e3, e4]

theorem lookCands_not_nl {c : Char} (t : List Char) (h : c ≠ '\n') :
    lookCands (c :: t) = [] := by
  unfold lookCands
  rw [nlSplit_not_nl t h]

theorem lookCands_nl (y : List Char) :
    lookCands ('\n' :: y) =
      (wsStarNl y).flatMap fun p2 =>
      (starSplits isWS p2.2).flatMap fun p3 =>
      (plusSplits isDig p3.2).flatMap fun p4 =>
      (wsStarNl p4.2).map fun p5 => p5.2 := rfl

theorem hasLook_not_nl {c : Char} (t : List Char) (h : c ≠ '\n') :
    hasLook (c :: t) = false := by
  unfold hasLook
  rw [lookCands_not_nl t h]
  rfl

theorem hasLook_nl_nonws (y : List Char)
    (h : ∀ c, y.head? = some c → isWS c = false) : hasLook ('\n' :: y) = false := by
  unfold hasLook
  rw [lookCands_nl, wsStarNl_nonws y h]
  rfl

theorem hasLook_boundary (n : Nat) (w : List Char)
    (hw : ∀ c, w.head? = some c → isWS c = false) :
    hasLook ('\n' :: '\n' :: (natDigits n ++ '\n' :: w)) = true := by
  have hdig : ∀ c, (natDigits n ++ '\n' :: w).head? = some c → isWS c = false := by
    intro c hc
    cases hnd : natDigits n with
    | nil => exact absurd hnd (natDigits_ne_nil n)
    | cons d t =>
      rw [hnd] at hc
      injection hc with hc
      have hd : isDig d = true :=
        natDigits_all_digits n d (by rw [hnd]; exact List.mem_cons_self d t)
      rw [← hc]
      exact isDig_not_ws hd
  unfold hasLook
  rw [lookCands_nl, wsStarNl_nl_nonws _ hdig]
  simp only [List.flatMap_cons, List.flatMap_nil, List.append_nil]
  rw [starSplits_nonws _ hdig]
  simp only [List.flatMap_cons, List.flatMap_nil, List.append_nil]
  obtain ⟨tl, htl⟩ := plusSplits_decomp isDig (natDigits n) ('\n' :: w)
    (natDigits_ne_nil n) (natDigits_all_digits n)
    (fun c hc => by injection hc with hc; rw [← hc]; decide)
  rw [htl]
  simp only [List.flatMap_cons]
  rw [wsStarNl_nl_nonws w hw]
  simp

/-- The splits the lazy piece tries strictly inside `a` (remainder keeps a
non-empty suffix of `a`), before any split at or beyond the boundary. -/
def lazyPre : List Char → List Char → List (List Char × List Char)
  | [], _ => []
  | c :: a, b => ([], c :: (a ++ b)) :: (lazyPre a b).map fun p => (c :: p.1, p.2)

theorem lazySplits_append (a b : List Char) :
    lazySplits (a ++ b) = lazyPre a b ++ (lazySplits b).map fun p => (a ++ p.1, p.2) := by
  induction a with
  | nil =>
    show lazySplits b = [] ++ (lazySplits b).map fun p => ([] ++ p.1, p.2)
    simp
  | cons c a' ih =>
    show ([], c :: (a' ++ b)) :: (lazySplits (a' ++ b)).map (fun p => (c :: p.1, p.2)) = _
    rw [ih, List.map_append, List.map_map]
    rfl

theorem lazyPre_mem :
    ∀ (a b : List Char) (p : List Char × List Char), p ∈ lazyPre a b →
      ∃ s, s ≠ [] ∧ s <:+ a ∧ p.2 = s ++ b := by
  intro a
  induction a with
  | nil => intro b p hp; simp [lazyPre] at hp
  | cons c a' ih =>
    intro b p hp
    rcases List.mem_cons.mp hp with rfl | hp2
    · exact ⟨c :: a', by simp, List.suffix_refl _, rfl⟩
    · obtain ⟨q, hq, hfq⟩ := List.mem_map.mp hp2
      obtain ⟨s, hs1, hs2, hs3⟩ := ih b q hq
      exact ⟨s, hs1, hs2.trans (List.suffix_cons c a'), by rw [← hfq]; exact hs3⟩

theorem suffix_append_cases {α : Type} {s a b : List α} (h : s <:+ a ++ b) :
    s <:+ b ∨ ∃ s0, s0 <:+ a ∧ s0 ≠ [] ∧ s = s0 ++ b := by
  obtain ⟨t, ht⟩ := h
  have hs : s = (a ++ b).drop t.length := by
    rw [← ht, List.drop_left]
  have hlen : t.length + s.length = a.length + b.length := by
    have := congrArg List.length ht
    simpa using this
  by_cases hc : a.length ≤ t.length
  · left
    rw [hs, show t.length = a.length + (t.length - a.length) from by omega, List.drop_append]
    exact List.drop_suffix _ _
  · right
    refine ⟨a.drop t.length, List.drop_suffix _ _, ?_, ?_⟩
    · intro he
      rw [List.drop_eq_nil_iff] at he
      omega
    · rw [hs, List.drop_append_of_le_length (by omega)]

theorem hasLook_suffix_joinLines :
    ∀ (ls : List (List Char)), ls ≠ [] → (∀ x ∈ ls, Tok x) →
      ∀ s b, s ≠ [] → s <:+ joinLines ls → hasLook (s ++ b) = false := by
  intro ls
  induction ls with
  | nil => intro h; exact absurd rfl h
  | cons l rest ih =>
    intro _ htok s b hs hsuf
    cases rest with
    | nil =>
      cases s with
      | nil => exact absurd rfl hs
      | cons c t =>
        have hcl : c ∈ l := List.IsSuffix.mem (List.mem_cons_self c t) hsuf
        have hcnl : c ≠ '\n' := fun he =>
          (htok l (List.mem_cons_self l _)).2.2 (he ▸ hcl)
        exact hasLook_not_nl _ hcnl
    | cons l2 rest2 =>
      have hJ : joinLines (l :: l2 :: rest2) = l ++ '\n' :: joinLines (l2 :: rest2) := rfl
      rw [hJ] at hsuf
      rcases suffix_append_cases hsuf with hsJ | ⟨s0, hs0suf, hs0ne, rfl⟩
      · rcases List.suffix_cons_iff.mp hsJ with rfl | hsJ2
        · show hasLook ('\n' :: (joinLines (l2 :: rest2) ++ b)) = false
          apply hasLook_nl_nonws
          intro c hc
          have hl2 := htok l2 (by simp)
          rw [head?_append_left (joinLines_ne_nil _ (by simp)
            (fun x hx => (htok x (List.mem_cons_of_mem l hx)).1)),
            joinLines_head? l2 rest2 hl2.1] at hc
          exact pyStrip_head_not_ws l2 c (by rwa [hl2.2.1])
        · exact ih (by simp) (fun x hx => htok x (List.mem_cons_of_mem l hx)) s b hs hsJ2
      · cases s0 with
        | nil => exact absurd rfl hs0ne
        | cons c t =>
          have hcl : c ∈ l := List.IsSuffix.mem (List.mem_cons_self c t) hs0suf
          have hcnl : c ≠ '\n' := fun he =>
            (htok l (List.mem_cons_self l _)).2.2 (he ▸ hcl)
          show hasLook (c :: (t ++ '\n' :: joinLines (l2 :: rest2) ++ b)) = false
          exact hasLook_not_nl _ hcnl

theorem matchAt_nl (y : List Char) : matchAt ('\n' :: y) = none := by
  unfold matchAt matchCands
  rw [plusSplits_nil_of_head isDig ('\n' :: y)
    (fun c hc => by injection hc with hc; rw [← hc]; decide)]
  rfl

theorem filterMap_cons_some {α β : Type} (f : α → Option β) (x : α) (l : List α) (y : β)
    (h : f x = some y) : List.filterMap f (x :: l) = y :: List.filterMap f l := by
  rw [List.filterMap_cons, h]

theorem matchTail_eq (g1v g2v : List Char) (ls : List (List Char)) (b : List Char)
    (hls : ls ≠ []) (htok : ∀ x ∈ ls, Tok x) (hb : lookOk b = true) :
    ∃ tl, ((lazySplits (joinLines ls ++ b)).filterMap fun p5 =>
        if lookOk p5.2 = true then some (⟨g1v, g2v, p5.1, p5.2⟩ : RMatch) else none) =
      ⟨g1v, g2v, joinLines ls, b⟩ :: tl := by
  rw [lazySplits_append, List.filterMap_append]
  have hpre : (lazyPre (joinLines ls) b).filterMap (fun p5 =>
      if lookOk p5.2 = true then some (⟨g1v, g2v, p5.1, p5.2⟩ : RMatch) else none) = [] := by
    rw [List.filterMap_eq_nil_iff]
    intro p hp
    obtain ⟨s, hs1, hs2, hs3⟩ := lazyPre_mem _ _ p hp
    have hlf : lookOk p.2 = false := by
      rw [hs3]
      unfold lookOk
      rw [hasLook_suffix_joinLines ls hls htok s b hs1 hs2]
      cases s with
      | nil => exact absurd rfl hs1
      | cons c t => rfl
    rw [hlf]
    rfl
  rw [hpre, List.nil_append]
  obtain ⟨tl', htl'⟩ : ∃ tl', lazySplits b = ([], b) :: tl' := by
    cases b with
    | nil => exact ⟨[], rfl⟩
    | cons c t => exact ⟨_, rfl⟩
  have hfx : (fun p5 => if lookOk p5.2 = true
      then some (⟨g1v, g2v, p5.1, p5.2⟩ : RMatch) else none)
      ((joinLines ls ++ ((([] : List Char), b)).1, ((([] : List Char), b)).2)) =
      some ⟨g1v, g2v, joinLines ls, b⟩ := by
    show (if lookOk b = true then some (⟨g1v, g2v, joinLines ls ++ [], b⟩ : RMatch)
      else none) = _
    rw [if_pos hb, List.append_nil]
  rw [htl', List.map_cons,
    filterMap_cons_some (fun p5 : List Char × List Char => if lookOk p5.2 = true
      then some (⟨g1v, g2v, p5.1, p5.2⟩ : RMatch) else none) _ _ _ hfx]
  exact ⟨_, rfl⟩

theorem matchAt_render (idn : Nat) (timing : List Char) (txt : List (List Char))
    (b : List Char)
    (htim : Tok timing) (htimc : ∀ c ∈ timing, classTwo c = true)
    (htxt : txt ≠ []) (htok : ∀ x ∈ txt, Tok x)
    (hheadc : ∀ t c, txt.head? = some t → t.head? = some c → classTwo c = false)
    (hb : lookOk b = true) :
    matchAt (natDigits idn ++ '\n' :: (timing ++ '\n' :: (joinLines txt ++ b))) =
      some ⟨natDigits idn, timing, joinLines txt, b⟩ := by
  have htimhead : ∀ c, (timing ++ '\n' :: (joinLines txt ++ b)).head? = some c →
      isWS c = false := by
    intro c hc
    rw [head?_append_left htim.1] at hc
    exact pyStrip_head_not_ws timing c (by rwa [htim.2.1])
  have hjt_ne : joinLines txt ≠ [] := joinLines_ne_nil txt htxt (fun x hx => (htok x hx).1)
  have hjtb_head : ∀ c, (joinLines txt ++ b).head? = some c → classTwo c = false := by
    intro c hc
    rw [head?_append_left hjt_ne] at hc
    cases htxt' : txt with
    | nil => exact absurd htxt' htxt
    | cons t1 ts =>
      rw [htxt', joinLines_head? t1 ts
        (htok t1 (by rw [htxt']; exact List.mem_cons_self t1 ts)).1] at hc
      exact hheadc t1 c (by rw [htxt']; rfl) hc
  have hjtb_headws : ∀ c, (joinLines txt ++ b).head? = some c → isWS c = false := by
    intro c hc
    have h2 := hjtb_head c hc
    cases hw : isWS c
    · rfl
    · exfalso
      unfold classTwo at h2
      rw [hw] at h2
      simp at h2
  unfold matchAt matchCands
  obtain ⟨tl1, h1⟩ := plusSplits_decomp isDig (natDigits idn)
    ('\n' :: (timing ++ '\n' :: (joinLines txt ++ b)))
    (natDigits_ne_nil idn) (natDigits_all_digits idn)
    (fun c hc => by injection hc with hc; rw [← hc]; decide)
  rw [h1]
  simp only [List.flatMap_cons]
  rw [wsStarNl_nl_nonws _ htimhead]
  simp only [List.flatMap_cons, List.flatMap_nil, List.append_nil]
  obtain ⟨tl2, h2⟩ := plusSplits_decomp2 classTwo timing (joinLines txt ++ b)
    htim.1 htimc (by decide) hjtb_head
  rw [h2]
  simp only [List.flatMap_cons]
  rw [wsStarNl_nonws _ hjtb_headws, wsStarNl_nl_nonws _ hjtb_headws]
  simp only [List.flatMap_cons, List.flatMap_nil, List.nil_append, List.append_nil]
  obtain ⟨tl3, h3⟩ := matchTail_eq (natDigits idn) timing txt b htxt htok hb
  rw [h3]
  simp [List.head?]

/-- The blank-line separator before the rendering of the remaining records
(empty at the end of the document). -/
def sepV (rest : List VRec) : List Char :=
  if rest = [] then [] else '\n' :: '\n' :: renderV rest

/-- A canonical record: a `CleanLine` (non-empty, stripped, free of every
`str.splitlines` break character) all-`classTwo` non-integer timing line,
and non-empty `CleanLine` non-integer text lines of which the first
starts outside the timing character class. -/
def CRecOk (r : VRec) : Prop :=
  CleanLine r.timing ∧ (∀ c ∈ r.timing, classTwo c = true) ∧ isPyInt r.timing = false ∧
    r.text ≠ [] ∧ (∀ t ∈ r.text, CleanLine t ∧ isPyInt t = false) ∧
    ∀ t ∈ r.text.head?, ∀ c ∈ t.head?, classTwo c = false

theorem joinLines_recVLines (r : VRec) (htxt : r.text ≠ []) :
    joinLines (recVLines r) =
      natDigits r.id ++ '\n' :: (r.timing ++ '\n' :: joinLines r.text) := by
  cases ht : r.text with
  | nil => exact absurd ht htxt
  | cons t1 ts =>
    show joinLines (natDigits r.id :: r.timing :: r.text) = _
    rw [ht]
    rfl

theorem renderV_cons_eq (r : VRec) (rest : List VRec) (htxt : r.text ≠ []) :
    renderV (r :: rest) =
      natDigits r.id ++ '\n' :: (r.timing ++ '\n' :: (joinLines r.text ++ sepV rest)) := by
  cases rest with
  | nil =>
    show joinLines (recVLines r) = _
    rw [joinLines_recVLines r htxt, sepV, if_pos rfl, List.append_nil]
  | cons r2 t =>
    show joinLines (recVLines r) ++ '\n' :: '\n' ::
        joinBlocks (((r2 :: t).map recVLines).map joinLines) = _
    rw [joinLines_recVLines r htxt, sepV, if_neg (by simp)]
    show _ = natDigits r.id ++ '\n' ::
      (r.timing ++ '\n' :: (joinLines r.text ++ '\n' :: '\n' :: renderV (r2 :: t)))
    simp [renderV, renderBlocks]

theorem renderV_head_nonws (rs : List VRec) (hne : rs ≠ [])
    (hok : ∀ r ∈ rs, CRecOk r) :
    ∀ c, (renderV rs).head? = some c → isWS c = false := by
  intro c hc
  cases rs with
  | nil => exact absurd rfl hne
  | cons r rest =>
    rw [renderV_cons_eq r rest (hok r (List.mem_cons_self r rest)).2.2.2.1] at hc
    cases hnd : natDigits r.id with
    | nil => exact absurd hnd (natDigits_ne_nil r.id)
    | cons d t =>
      rw [hnd] at hc
      injection hc with hc
      rw [← hc]
      exact isDig_not_ws (natDigits_all_digits r.id d
        (by rw [hnd]; exact List.mem_cons_self d t))

theorem lookOk_sepV (rest : List VRec) (hok : ∀ r ∈ rest, CRecOk r) :
    lookOk (sepV rest) = true := by
  cases rest with
  | nil =>
    rw [sepV, if_pos rfl]
    rfl
  | cons r2 t =>
    rw [sepV, if_neg (by simp)]
    unfold lookOk
    rw [renderV_cons_eq r2 t (hok r2 (List.mem_cons_self r2 t)).2.2.2.1]
    rw [hasLook_boundary r2.id _ (fun c hc => by
      rw [head?_append_left (hok r2 (List.mem_cons_self r2 t)).1.1] at hc
      exact pyStrip_head_not_ws r2.timing c
        (by rwa [(hok r2 (List.mem_cons_self r2 t)).1.2.1]))]
    rfl

/-- The matches `re.finditer` reports on a rendered canonical document. -/
def expMatches : List VRec → List RMatch
  | [] => []
  | r :: rest => ⟨natDigits r.id, r.timing, joinLines r.text, sepV rest⟩ :: expMatches rest

theorem findGo_render :
    ∀ (rs : List VRec) (fuel : Nat), (∀ r ∈ rs, CRecOk r) →
      (renderV rs).length < fuel → findGo fuel (renderV rs) = expMatches rs := by
  intro rs
  induction rs with
  | nil =>
    intro fuel _ hf
    cases fuel with
    | zero => omega
    | succ f => rfl
  | cons r rest ih =>
    intro fuel hok hf
    obtain ⟨htim, htimc, htimint, htxt, htoks, hheadc⟩ := hok r (List.mem_cons_self r rest)
    have hD := renderV_cons_eq r rest htxt
    have hm : matchAt (renderV (r :: rest)) =
        some ⟨natDigits r.id, r.timing, joinLines r.text, sepV rest⟩ := by
      rw [hD]
      exact matchAt_render r.id r.timing r.text (sepV rest) htim.tok htimc htxt
        (fun x hx => (htoks x hx).1.tok)
        (fun t c ht hc => hheadc t (by rw [ht]; rfl) c (by rw [hc]; rfl))
        (lookOk_sepV rest (fun a ha => hok a (List.mem_cons_of_mem r ha)))
    cases fuel with
    | zero => omega
    | succ f =>
      obtain ⟨c, nd', hnd⟩ : ∃ c nd', natDigits r.id = c :: nd' := by
        cases hh : natDigits r.id with
        | nil => exact absurd hh (natDigits_ne_nil r.id)
        | cons c nd' => exact ⟨c, nd', rfl⟩
      have hDc : renderV (r :: rest) =
          c :: (nd' ++ '\n' :: (r.timing ++ '\n' :: (joinLines r.text ++ sepV rest))) := by
        rw [hD, hnd]
        rfl
      rw [hDc]
      show (match matchAt (c :: (nd' ++ '\n' ::
          (r.timing ++ '\n' :: (joinLines r.text ++ sepV rest)))) with
        | none => findGo f (nd' ++ '\n' :: (r.timing ++ '\n' ::
            (joinLines r.text ++ sepV rest)))
        | some m => m :: findGo f m.rest) = expMatches (r :: rest)
      rw [← hDc, hm]
      show _ :: findGo f (sepV rest) =
        (⟨natDigits r.id, r.timing, joinLines r.text, sepV rest⟩ : RMatch) :: expMatches rest
      congr 1
      cases rest with
      | nil =>
        rw [sepV, if_pos rfl]
        cases f <;> rfl
      | cons r2 t =>
        have hlen : (renderV (r :: r2 :: t)).length =
            (natDigits r.id).length + 1 + (r.timing.length + 1 +
              ((joinLines r.text).length + (2 + (renderV (r2 :: t)).length))) := by
          rw [hD]
          simp [sepV, List.length_append]
          omega
        have hnd_pos : 1 ≤ (natDigits r.id).length := by
          rw [hnd]
          simp
        rw [sepV, if_neg (by simp)]
        cases f with
        | zero => omega
        | succ f2 =>
          show (match matchAt ('\n' :: ('\n' :: renderV (r2 :: t))) with
            | none => findGo f2 ('\n' :: renderV (r2 :: t))
            | some m => m :: findGo f2 m.rest) = expMatches (r2 :: t)
          rw [matchAt_nl]
          cases f2 with
          | zero => omega
          | succ f3 =>
            show (match matchAt ('\n' :: renderV (r2 :: t)) with
              | none => findGo f3 (renderV (r2 :: t))
              | some m => m :: findGo f3 m.rest) = expMatches (r2 :: t)
            rw [matchAt_nl]
            exact ih f3 (fun a ha => hok a (List.mem_cons_of_mem r ha)) (by omega)

theorem pyStrip_joinLines_tok (ls : List (List Char)) (hne : ls ≠ [])
    (htok : ∀ l ∈ ls, Tok l) : pyStrip (joinLines ls) = joinLines ls := by
  apply pyStrip_eq_self
  · intro c hc
    cases ls with
    | nil => exact absurd rfl hne
    | cons l t =>
      rw [joinLines_head? l t (htok l (List.mem_cons_self l t)).1] at hc
      exact pyStrip_head_not_ws l c (by rwa [(htok l (List.mem_cons_self l t)).2.1])
  · intro c hc
    obtain ⟨x, hx1, hx2⟩ := joinLines_getLast? ls hne (fun l hl => (htok l hl).1)
    rw [hx2] at hc
    exact pyStrip_getLast_not_ws x c (by rwa [(htok x (getLast?_mem hx1)).2.1])

theorem expMatches_map_blocks :
    ∀ rs : List VRec, (∀ r ∈ rs, CRecOk r) →
      (expMatches rs).map (fun m => (⟨pyIntVal m.g1,
          intToStr (pyIntVal m.g1) ++ '\n' :: m.g2 ++ '\n' :: pyStrip m.g3⟩ : SBlock)) =
        rs.map fun r => ⟨(r.id : Int), joinLines (recVLines r)⟩ := by
  intro rs
  induction rs with
  | nil => intro _; rfl
  | cons r rest ih =>
    intro hok
    obtain ⟨htim, htimc, htimint, htxt, htoks, hheadc⟩ := hok r (List.mem_cons_self r rest)
    show (⟨pyIntVal (natDigits r.id), intToStr (pyIntVal (natDigits r.id)) ++ '\n' ::
        r.timing ++ '\n' :: pyStrip (joinLines r.text)⟩ : SBlock) ::
        (expMatches rest).map _ = _
    rw [List.map_cons, ih (fun a ha => hok a (List.mem_cons_of_mem r ha))]
    congr 1
    rw [pyIntVal_natDigits, pyStrip_joinLines_tok r.text htxt (fun t ht => (htoks t ht).1.tok),
      joinLines_recVLines r htxt,
      show intToStr ((r.id : Nat) : Int) = natDigits r.id from rfl]
    simp [List.cons_append, List.append_assoc]

theorem splitParse_render (rs : List VRec) (hne : rs ≠ []) (hok : ∀ r ∈ rs, CRecOk r) :
    splitParse (renderV rs) = rs.map fun r => ⟨(r.id : Int), joinLines (recVLines r)⟩ := by
  have hreg : regexBlocks (renderV rs) =
      rs.map fun r => ⟨(r.id : Int), joinLines (recVLines r)⟩ := by
    unfold regexBlocks regexFind
    rw [findGo_render rs ((renderV rs).length + 1) hok (by omega)]
    exact expMatches_map_blocks rs hok
  unfold splitParse
  rw [hreg, if_neg ?hne2]
  case hne2 =>
    cases rs with
    | nil => exact absurd rfl hne
    | cons a t => simp

theorem tok_recVLines (r : VRec) (hok : CRecOk r) : ∀ l ∈ recVLines r, Tok l := by
  intro l hl
  unfold recVLines at hl
  rcases List.mem_cons.mp hl with rfl | hl2
  · exact tok_natDigits r.id
  rcases List.mem_cons.mp hl2 with rfl | hl3
  · exact hok.1.tok
  · exact (hok.2.2.2.2.1 l hl3).1.tok

theorem wf_recVLines (r : VRec) (hok : CRecOk r) : WFBlock (recVLines r) := by
  refine ⟨natDigits r.id, r.timing :: r.text, rfl, isPyInt_natDigits r.id, ?_⟩
  intro l hl
  rcases List.mem_cons.mp hl with rfl | hl2
  · exact hok.2.2.1
  · exact (hok.2.2.2.2.1 l hl2).2

theorem tokens_renderV (g : List VRec) (hne : g ≠ []) (hok : ∀ r ∈ g, CRecOk r) :
    tokens (renderV g) = (g.map recVLines).flatten := by
  show tokens (joinBlocks ((g.map recVLines).map joinLines)) = _
  apply tokens_joinBlocks
  · intro b hb
    obtain ⟨r, _, rfl⟩ := List.mem_map.mp hb
    simp [recVLines]
  · intro b hb
    obtain ⟨r, hr, rfl⟩ := List.mem_map.mp hb
    exact tok_recVLines r (hok r hr)

theorem reasmParse_render (g : List VRec) (hne : g ≠ []) (hok : ∀ r ∈ g, CRecOk r) :
    reasmParse (renderV g) = g.map recVLines := by
  unfold reasmParse
  rw [pyTokens_eq_tokens, tokens_renderV g hne hok]
  apply groupTok_flatten
  intro b hb
  obtain ⟨r, hr, rfl⟩ := List.mem_map.mp hb
  exact wf_recVLines r (hok r hr)

theorem transBlockOut_full (prov : List Char → List Char) (idv : Int) (l0 l1 : List Char)
    (rest : List (List Char)) (hrest : rest ≠ []) :
    transBlockOut prov ⟨idv, l0 :: l1 :: rest⟩ =
      (l0 ++ ('\n' :: l1)) ++ ('\n' :: prov (joinLines rest)) := by
  unfold transBlockOut
  rw [if_neg ?hlen]
  case hlen =>
    have := List.length_pos.mpr hrest
    simp
    omega
  rfl

theorem translateId_render (g : List VRec) (hne : g ≠ []) (hok : ∀ r ∈ g, CRecOk r) :
    (translateChunkWith (fun t => t) [] (renderV g)).translated_content = renderV g := by
  show joinBlocks ((transBlocks (renderV g)).map (transBlockOut fun t => t)) = _
  have h1 : transBlocks (renderV g) =
      (g.map recVLines).map fun b => ⟨pyIntVal (b.headD []), b⟩ := by
    unfold transBlocks
    rw [pyTokens_eq_tokens, tokens_renderV g hne hok]
    apply transGroup_flatten
    intro b hb
    obtain ⟨r, hr, rfl⟩ := List.mem_map.mp hb
    exact wf_recVLines r (hok r hr)
  rw [h1, List.map_map]
  show _ = joinBlocks ((g.map recVLines).map joinLines)
  apply congrArg
  apply List.map_congr_left
  intro b hb
  obtain ⟨r, hr, rfl⟩ := List.mem_map.mp hb
  obtain ⟨htim, htimc, htimint, htxt, htoks, hheadc⟩ := hok r hr
  cases ht : r.text with
  | nil => exact absurd ht htxt
  | cons t1 ts =>
    show transBlockOut (fun t => t) ⟨pyIntVal ((recVLines r).headD []), recVLines r⟩ =
      joinLines (recVLines r)
    have hlines : recVLines r = natDigits r.id :: r.timing :: (t1 :: ts) := by
      rw [show recVLines r = natDigits r.id :: r.timing :: r.text from rfl, ht]
    rw [hlines, transBlockOut_full (fun t => t) _ _ _ _ (by simp)]
    simp [List.cons_append, List.append_assoc, joinLines]

/- ### Stage E/F: chunk ids are sorted; the full round trip -/

theorem pairwise_enumFrom_fst {α : Type} :
    ∀ (l : List α) (n : Nat), (List.enumFrom n l).Pairwise fun p q => p.1 < q.1 := by
  intro l
  induction l with
  | nil => intro n; exact List.Pairwise.nil
  | cons x xs ih =>
    intro n
    show List.Pairwise _ ((n, x) :: List.enumFrom (n + 1) xs)
    refine List.Pairwise.cons ?_ (ih (n + 1))
    intro q hq
    obtain ⟨i, a⟩ := q
    have h := (List.mem_enumFrom hq).1
    show n < i
    omega

theorem flatMap_enumFrom {α β : Type} (f : α → List β) :
    ∀ (l : List α) (n : Nat),
      (List.enumFrom n l).flatMap (fun p => f p.2) = l.flatMap f := by
  intro l
  induction l with
  | nil => intro n; rfl
  | cons x xs ih =>
    intro n
    show f x ++ (List.enumFrom (n + 1) xs).flatMap (fun p => f p.2) = f x ++ xs.flatMap f
    rw [ih]

theorem flatMap_map_eq {α β : Type} (f : α → β) (L : List (List α)) :
    L.flatMap (fun g => g.map f) = L.flatten.map f := by
  induction L with
  | nil => rfl
  | cons g rest ih =>
    show g.map f ++ rest.flatMap (fun g => g.map f) = (g ++ rest.flatten).map f
    rw [List.map_append, ih]

theorem snd_mem_of_mem_enum {α : Type} {l : List α} {p : Nat × α} (hp : p ∈ l.enum) :
    p.2 ∈ l := by
  obtain ⟨i, a⟩ := p
  obtain ⟨hi, ha⟩ := List.mem_enum hp
  show a ∈ l
  rw [ha]
  exact List.getElem_mem hi

/-- The pipeline of the round-trip law with the splitting stage repaired
to the intended pattern: split into chunks of `k` records, translate each
chunk with the identity provider and no glossary, reassemble with
`normalize_ids = false`.  (As shipped, `split_srt` raises instead of
returning chunks, so this pipeline cannot be run at all — see C4.) -/
def roundTrip (content : List Char) (k : Nat) : ReasmResult :=
  reassembleSrt ((splitSrt content k).chunks.map fun c =>
    ⟨(c.id : Int), (translateChunkWith (fun t => t) [] c.content).translated_content⟩) false

theorem roundtrip_core (rs : List VRec) (k : Nat) (hne : rs ≠ [])
    (hok : ∀ r ∈ rs, CRecOk r) :
    roundTrip (renderV rs) k = ⟨renderV rs, rs.length⟩ := by
  have h_split := splitParse_render rs hne hok
  have hG : toChunks k (splitParse (renderV rs)) =
      (toVChunks k rs).map (List.map fun r =>
        (⟨(r.id : Int), joinLines (recVLines r)⟩ : SBlock)) := by
    rw [h_split]
    unfold toChunks toVChunks
    rw [List.length_map, toChunksGo_map]
  have hGflat : (toVChunks k rs).flatten = rs :=
    toVChunksGo_flatten k (rs.length + 1) rs (by omega)
  have hGne : ∀ g ∈ toVChunks k rs, g ≠ [] := toVChunksGo_ne_nil k (rs.length + 1) rs
  have hGok : ∀ g ∈ toVChunks k rs, ∀ r ∈ g, CRecOk r := by
    intro g hg r hr
    exact hok r (by rw [← hGflat]; exact List.mem_flatten.mpr ⟨g, hg, hr⟩)
  have hchunks : (splitSrt (renderV rs) k).chunks =
      ((toVChunks k rs).enum.map fun p =>
        mkChunk p.1 (p.2.map fun r => (⟨(r.id : Int), joinLines (recVLines r)⟩ : SBlock))) := by
    show ((toChunks k (splitParse (renderV rs))).enum.map fun p => mkChunk p.1 p.2) = _
    rw [hG, List.enum_map, List.map_map]
    rfl
  have htrans : ((splitSrt (renderV rs) k).chunks.map fun c =>
      (⟨(c.id : Int),
        (translateChunkWith (fun t => t) [] c.content).translated_content⟩ : RChunk)) =
      (toVChunks k rs).enum.map fun p =>
        (⟨((p.1 + 1 : Nat) : Int), renderV p.2⟩ : RChunk) := by
    rw [hchunks, List.map_map]
    apply List.map_congr_left
    intro p hp
    have hp2 : p.2 ∈ toVChunks k rs := snd_mem_of_mem_enum hp
    have hc : (mkChunk p.1 (p.2.map fun r =>
        (⟨(r.id : Int), joinLines (recVLines r)⟩ : SBlock))).content = renderV p.2 := by
      show joinBlocks ((p.2.map fun r =>
        (⟨(r.id : Int), joinLines (recVLines r)⟩ : SBlock)).map (·.content)) = _
      rw [List.map_map]
      show _ = joinBlocks ((p.2.map recVLines).map joinLines)
      rw [List.map_map]
      apply congrArg
      apply List.map_congr_left
      intro r _
      rfl
    show (⟨((p.1 + 1 : Nat) : Int),
      (translateChunkWith (fun t => t) [] (mkChunk p.1 (p.2.map fun r =>
        (⟨(r.id : Int), joinLines (recVLines r)⟩ : SBlock))).content).translated_content⟩ :
        RChunk) = _
    rw [hc, translateId_render p.2 (hGne p.2 hp2) (hGok p.2 hp2)]
  have hsorted : List.Sorted (fun a b : RChunk => a.id ≤ b.id)
      ((toVChunks k rs).enum.map fun p =>
        (⟨((p.1 + 1 : Nat) : Int), renderV p.2⟩ : RChunk)) := by
    rw [List.enum_eq_enumFrom]
    apply List.pairwise_map.mpr
    apply List.Pairwise.imp ?_ (pairwise_enumFrom_fst (toVChunks k rs) 0)
    intro a b h
    show ((a.1 + 1 : Nat) : Int) ≤ ((b.1 + 1 : Nat) : Int)
    exact_mod_cast (by omega : a.1 + 1 ≤ b.1 + 1)
  have hsort : sortChunks ((toVChunks k rs).enum.map fun p =>
      (⟨((p.1 + 1 : Nat) : Int), renderV p.2⟩ : RChunk)) =
      (toVChunks k rs).enum.map fun p =>
        (⟨((p.1 + 1 : Nat) : Int), renderV p.2⟩ : RChunk) :=
    List.Sorted.insertionSort_eq hsorted
  have hall : (((toVChunks k rs).enum.map fun p =>
        (⟨((p.1 + 1 : Nat) : Int), renderV p.2⟩ : RChunk)).flatMap fun c =>
        reasmParse c.translated_content) = rs.map recVLines := by
    rw [List.flatMap_map]
    rw [List.flatMap_congr (g := fun p : Nat × List VRec => p.2.map recVLines) ?_]
    · rw [List.enum_eq_enumFrom, flatMap_enumFrom, flatMap_map_eq, hGflat]
    · intro p hp
      have hp2 : p.2 ∈ toVChunks k rs := snd_mem_of_mem_enum hp
      exact reasmParse_render p.2 (hGne p.2 hp2) (hGok p.2 hp2)
  show reassembleSrt _ false = _
  unfold reassembleSrt
  rw [htrans]
  simp only [Bool.false_eq_true, if_false]
  rw [hsort, hall]
  have hcontent : pyStrip ((rs.map recVLines).flatMap fun b =>
      if b = [] then [] else joinLines b ++ ['\n', '\n']) =
      joinBlocks ((rs.map recVLines).map joinLines) := by
    apply strip_blockChain
    · intro b hb
      obtain ⟨r, _, rfl⟩ := List.mem_map.mp hb
      simp [recVLines]
    · intro b hb
      obtain ⟨r, hr, rfl⟩ := List.mem_map.mp hb
      exact tok_recVLines r (hok r hr)
  show (⟨pyStrip ((rs.map recVLines).flatMap fun b =>
    if b = [] then [] else joinLines b ++ ['\n', '\n']),
    (rs.map recVLines).length⟩ : ReasmResult) = _
  rw [hcontent, List.length_map]
  rfl

instance (l : List Char) : Decidable (Tok l) := by
  unfold Tok
  infer_instance

instance (l : List Char) : Decidable (CleanLine l) := by
  unfold CleanLine
  infer_instance

instance (r : VRec) : Decidable (CRecOk r) := by
  unfold CRecOk
  infer_instance

/-- For every canonically rendered document whose records have clean
(line-break-free, stripped) all-timing-class, non-integer timing lines
and non-empty clean text lines that are not themselves integers (and
whose first text line does not begin with a timing-class character), and
every chunk size `k ≥ 1`, the repaired round trip reproduces the
document exactly: same content, record count, and parsed records (ids,
timing lines, text lines) in order.  Even repaired, the law does not
extend to all validator-accepted documents — see
`roundtrip_counterexample`: a digits-only text line is re-parsed as a
new record boundary. -/
theorem roundtrip_identity (rs : List VRec) (k : Nat) (hk : 1 ≤ k) (hne : rs ≠ [])
    (hok : ∀ r ∈ rs, CRecOk r) :
    roundTrip (renderV rs) k = ⟨renderV rs, rs.length⟩ ∧
      reasmParse (roundTrip (renderV rs) k).content = rs.map recVLines := by
  have h := roundtrip_core rs k hne hok
  refine ⟨h, ?_⟩
  rw [h]
  exact reasmParse_render rs hne hok

set_option maxRecDepth 8000 in
/-- The document `1\n00:00:01,000 --> 00:00:02,000\n42` is accepted by
the validator, yet even the repaired `k = 1` round trip with the
identity provider and `normalize_ids = false` returns different
content — the digits-only text line `42` opens a new record in the
reassembler's line scan, so the output carries two records instead of
one. -/
theorem roundtrip_counterexample :
    validateSrt ("1\n00:00:01,000 --> 00:00:02,000\n42".data) = ⟨true, []⟩ ∧
      (roundTrip ("1\n00:00:01,000 --> 00:00:02,000\n42".data) 1).content =
        ("1\n00:00:01,000 --> 00:00:02,000\n\n42").data ∧
      (roundTrip ("1\n00:00:01,000 --> 00:00:02,000\n42".data) 1).subtitle_count = 2 := by
  refine ⟨by decide, by decide, by decide⟩

set_option maxRecDepth 8000 in
/-- The hypotheses of `roundtrip_identity` discharged at a two-record
canonical document with chunk size 2. -/
theorem roundtrip_identity_witness :
    1 ≤ 2 ∧
    ([⟨1, "00:00:01,000 --> 00:00:02,000".data, ["Hello".data]⟩,
        ⟨2, "00:00:03,000 --> 00:00:04,000".data, ["world a".data, "b c".data]⟩] :
      List VRec) ≠ [] ∧
    (∀ r ∈ ([⟨1, "00:00:01,000 --> 00:00:02,000".data, ["Hello".data]⟩,
        ⟨2, "00:00:03,000 --> 00:00:04,000".data, ["world a".data, "b c".data]⟩] :
      List VRec), CRecOk r) ∧
    roundTrip (renderV [⟨1, "00:00:01,000 --> 00:00:02,000".data, ["Hello".data]⟩,
        ⟨2, "00:00:03,000 --> 00:00:04,000".data, ["world a".data, "b c".data]⟩]) 2 =
      ⟨renderV [⟨1, "00:00:01,000 --> 00:00:02,000".data, ["Hello".data]⟩,
        ⟨2, "00:00:03,000 --> 00:00:04,000".data, ["world a".data, "b c".data]⟩], 2⟩ :=
  ⟨by decide, by decide, by decide,
    (roundtrip_identity _ 2 (by decide) (by decide) (by decide)).1⟩

end SubTransAI
